import Mathlib

/-!
Verification of the doc2tex bidirectional converter (src/doc2tex).
Strings are modelled as `List Char`; Python's `str.replace`, `str.split`,
`str.strip`, `str.startswith`, `in` and the concrete regular expressions the
source uses are modelled as executable functions below.
-/

namespace DocTex

abbrev Str := List Char

/-- `lstartsWith s p` : does `s` start with `p` (Python `s.startswith(p)`). -/
def lstartsWith : Str → Str → Bool
  | _, [] => true
  | [], _ :: _ => false
  | c :: s, p :: ps => c == p && lstartsWith s ps

/-- First index at which `pat` occurs in `s` (leftmost occurrence), if any. -/
def findSubIdx (pat : Str) : Str → Option Nat
  | [] => if lstartsWith [] pat then some 0 else none
  | s@(_ :: rest) =>
    if lstartsWith s pat then some 0
    else (findSubIdx pat rest).map (· + 1)

/-- Python `pat in s`. -/
def occursIn (pat s : Str) : Bool := (findSubIdx pat s).isSome

/-- Python `str.replace`, worker: `skip` chars are still part of an already
matched occurrence and are consumed without rescanning. -/
def replaceGo (pat repl : Str) : Str → Nat → Str
  | [], _ => []
  | _ :: rest, Nat.succ k => replaceGo pat repl rest k
  | s@(c :: rest), 0 =>
    if lstartsWith s pat then repl ++ replaceGo pat repl rest (pat.length - 1)
    else c :: replaceGo pat repl rest 0

/-- Python `s.replace(pat, repl)`: simultaneous left-to-right replacement of all
non-overlapping occurrences; replacement text is never rescanned. -/
def replaceAll (pat repl s : Str) : Str := replaceGo pat repl s 0

/-- The `LATEX_SPECIAL_CHARS` dict of `utils.py`, in its insertion order. -/
def LATEX_SPECIAL_CHARS : List (Char × Str) :=
  [('&', ['\\', '&']), ('%', ['\\', '%']), ('$', ['\\', '$']),
   ('#', ['\\', '#']), ('_', ['\\', '_']),
   ('\x7b', ['\\', '\x7b']), ('\x7d', ['\\', '\x7d']),
   ('~', String.toList "\\textasciitilde\x7b\x7d"),
   ('^', String.toList "\\textasciicircum\x7b\x7d"),
   ('\\', String.toList "\\textbackslash\x7b\x7d")]

/-- `escape_latex` of `utils.py`: replace backslash first, then loop over the
table (skipping the backslash entry), each step a global `str.replace`. -/
def escape_latex (text : Str) : Str :=
  let t := replaceAll ['\\'] (String.toList "\\textbackslash\x7b\x7d") text
  LATEX_SPECIAL_CHARS.foldl
    (fun acc p => if p.1 == '\\' then acc else replaceAll [p.1] p.2 acc) t

/-- `unescape_latex` of `utils.py`: for each table entry in order, globally
replace the escape sequence by the character. -/
def unescape_latex (text : Str) : Str :=
  LATEX_SPECIAL_CHARS.foldl (fun acc p => replaceAll p.2 [p.1] acc) text

/-- Python whitespace, as used by `str.strip` and `\s`. -/
def pyWsChar (c : Char) : Bool :=
  c == ' ' || c == '\t' || c == '\n' || c == '\r' || c == '\x0b' || c == '\x0c'

/-- Python `s.strip()`. -/
def pyStrip (s : Str) : Str :=
  ((s.dropWhile pyWsChar).reverse.dropWhile pyWsChar).reverse

/-- Worker for `splitOnSub`; `skip` chars belong to an already matched
separator, `acc` is the current piece reversed. -/
def splitGo (sep : Str) : Str → Nat → Str → List Str
  | [], _, acc => [acc.reverse]
  | _ :: rest, Nat.succ k, acc => splitGo sep rest k acc
  | s@(c :: rest), 0, acc =>
    if lstartsWith s sep then acc.reverse :: splitGo sep rest (sep.length - 1) []
    else splitGo sep rest 0 (c :: acc)

/-- Python `s.split(sep)` for a non-empty separator. -/
def splitOnSub (sep s : Str) : List Str := splitGo sep s 0 []

/-! ### The object-model → markup generator (`latex.py`) -/

/-- A run of the rich-document object model as the generator reads it:
text plus the three formatting flags and the optional hyperlink target
(`none` models a run whose hyperlink attribute is absent or falsy). -/
structure SrcRun where
  text : Str
  bold : Bool
  italic : Bool
  underline : Bool
  link : Option Str
deriving DecidableEq, Repr

/-- The run-rendering steps of `_process_paragraph` in `latex.py`: escape the
text, wrap bold, then italic, then underline, then (if a hyperlink target with
a non-empty address is present) wrap everything in the href command. -/
def renderRun (run : SrcRun) : Str :=
  let t := escape_latex run.text
  let t := if run.bold then String.toList "\\textbf\x7b" ++ t ++ ['\x7d'] else t
  let t := if run.italic then String.toList "\\textit\x7b" ++ t ++ ['\x7d'] else t
  let t := if run.underline then String.toList "\\underline\x7b" ++ t ++ ['\x7d'] else t
  match run.link with
  | some url =>
    if url.isEmpty then t
    else String.toList "\\href\x7b" ++ url ++ String.toList "\x7d\x7b" ++ t ++ ['\x7d']
  | none => t

/-- `_process_heading` of `latex.py`: pick the sectioning command by substring
tests against the paragraph's style name, in the order 1, 2, 3, 4, fallback. -/
def process_heading (styleName text : Str) : Str :=
  let t := escape_latex text
  if occursIn (String.toList "Heading 1") styleName then
    String.toList "\\section\x7b" ++ t ++ ['\x7d']
  else if occursIn (String.toList "Heading 2") styleName then
    String.toList "\\subsection\x7b" ++ t ++ ['\x7d']
  else if occursIn (String.toList "Heading 3") styleName then
    String.toList "\\subsubsection\x7b" ++ t ++ ['\x7d']
  else if occursIn (String.toList "Heading 4") styleName then
    String.toList "\\paragraph\x7b" ++ t ++ ['\x7d']
  else
    String.toList "\\subparagraph\x7b" ++ t ++ ['\x7d']

/-- The style name a level-`n` heading paragraph carries in the document
object model. -/
def headingStyleName (level : Nat) : Str :=
  String.toList "Heading " ++ (Nat.repr level).toList

/-- Generating the markup of a `Heading(level, text)` block. -/
def genHeadingCmd (level : Nat) (text : Str) : Str :=
  process_heading (headingStyleName level) text

/-! ### The markup → object-model generator (`docx.py`) -/

/-- A run added to an output paragraph by the inline scanner. -/
structure Run where
  text : Str
  bold : Bool
  italic : Bool
  underline : Bool
deriving DecidableEq, Repr

def plainRun (t : Str) : Run := ⟨t, false, false, false⟩

/-- One element appended to the output document by the block handlers.
The figure handler's filesystem lookup (`os.path.exists` / `add_picture`) is
external; both of its outcomes carry the extracted path, abstracted here as a
single `figure` item. -/
inductive DocItem where
  | heading (level : Nat) (text : Str)
  | para (runs : List Run)
  | styledPara (text : Str) (style : Str)
  | centerPara (text : Str)
  | table (cells : List (List Str))
  | figure (path : Str)
deriving DecidableEq, Repr

inductive FmtKind where
  | bold
  | italic
  | underline
  | hyperlink
deriving DecidableEq, Repr

/-- Match `cmd ++ ([^\x7d]+) ++ '\x7d'` at the start of `s`; returns the
capture and the full match length.  (`[^}]+` is greedy but cannot cross a
closing brace, so only the maximal run can complete the match.) -/
def matchWrap (cmd s : Str) : Option (Str × Nat) :=
  if lstartsWith s cmd then
    let body := s.drop cmd.length
    let cap := body.takeWhile (fun c => c != '\x7d')
    if (!cap.isEmpty) && lstartsWith (body.drop cap.length) ['\x7d'] then
      some (cap, cmd.length + cap.length + 1)
    else none
  else none

/-- Match the two-argument href pattern at the start of `s`; returns the second
capture (the visible text, which is all `_parse_inline_formatting` uses) and
the full match length. -/
def matchHref (s : Str) : Option (Str × Nat) :=
  if lstartsWith s (String.toList "\\href\x7b") then
    let b1 := s.drop 6
    let u := b1.takeWhile (fun c => c != '\x7d')
    if (!u.isEmpty) && lstartsWith (b1.drop u.length) ['\x7d'] then
      let b2 := b1.drop (u.length + 1)
      match b2 with
      | '\x7b' :: b3 =>
        let t := b3.takeWhile (fun c => c != '\x7d')
        if (!t.isEmpty) && lstartsWith (b3.drop t.length) ['\x7d'] then
          some (t, 6 + u.length + 1 + 1 + t.length + 1)
        else none
      | _ => none
    else none
  else none

/-- `re.search`: the match at the leftmost position where the matcher
succeeds; returns (start, capture, match length). -/
def searchPat (m : Str → Option (Str × Nat)) : Str → Option (Nat × Str × Nat)
  | [] => none
  | s@(_ :: rest) =>
    match m s with
    | some (cap, len) => some (0, cap, len)
    | none => (searchPat m rest).map (fun r => (r.1 + 1, r.2))

/-- The `patterns` list of `_parse_inline_formatting`, in source order. -/
def inlinePatterns : List (FmtKind × (Str → Option (Str × Nat))) :=
  [(.bold, matchWrap (String.toList "\\textbf\x7b")),
   (.italic, matchWrap (String.toList "\\textit\x7b")),
   (.underline, matchWrap (String.toList "\\underline\x7b")),
   (.hyperlink, matchHref)]

structure PatMatch where
  kind : FmtKind
  start : Nat
  cap : Str
  len : Nat
deriving DecidableEq, Repr

/-- One iteration of the selection loop of `_parse_inline_formatting`: keep
the new pattern's match only when its start is strictly smaller than the
current best's. -/
def selStep (s : Str) (cur : Option PatMatch)
    (p : FmtKind × (Str → Option (Str × Nat))) : Option PatMatch :=
  match searchPat p.2 s with
  | none => cur
  | some (st, cap, len) =>
    match cur with
    | none => some ⟨p.1, st, cap, len⟩
    | some c => if st < c.start then some ⟨p.1, st, cap, len⟩ else cur

/-- The selection loop of `_parse_inline_formatting`: search every pattern in
the remainder, keep the first match whose start is strictly smaller than the
current best. -/
def selectMatch (s : Str) : Option PatMatch :=
  inlinePatterns.foldl (selStep s) none

/-- The scanning loop of `_parse_inline_formatting`, recursing on the
unconsumed remainder `text[pos:]`.  The fuel argument only bounds the
recursion; `s.length + 1` can never be exhausted because every iteration
consumes at least one character. -/
def parseInlineAux : Nat → Str → List Run
  | 0, _ => []
  | _, [] => []
  | Nat.succ fuel, s =>
    match selectMatch s with
    | none =>
      let remaining := unescape_latex s
      if remaining.isEmpty then [] else [plainRun remaining]
    | some m =>
      let beforeText := unescape_latex (s.take m.start)
      let beforeRuns := if beforeText.isEmpty then [] else [plainRun beforeText]
      let fmtRun : Run :=
        match m.kind with
        | .hyperlink => plainRun (unescape_latex m.cap)
        | .bold => ⟨unescape_latex m.cap, true, false, false⟩
        | .italic => ⟨unescape_latex m.cap, false, true, false⟩
        | .underline => ⟨unescape_latex m.cap, false, false, true⟩
      beforeRuns ++ fmtRun :: parseInlineAux fuel (s.drop (m.start + m.len))

def parseInline (s : Str) : List Run := parseInlineAux (s.length + 1) s

/-- Count of leading `sub` repetitions (fuel-bounded; each step drops 3). -/
def maxSubsAux : Nat → Str → Nat
  | 0, _ => 0
  | Nat.succ f, s =>
    if lstartsWith s (String.toList "sub") then maxSubsAux f (s.drop 3) + 1 else 0

def maxSubs (s : Str) : Nat := maxSubsAux s.length s

/-- Match the heading-title pattern of `_process_section` at the start of `s`:
a backslash, any number of `sub` repetitions, `section`, and a braced
non-empty title free of closing braces.  The regex's backtracking over fewer
`sub` repetitions can never succeed, since a remaining `sub` cannot begin
`section`. -/
def matchSectionAt (s : Str) : Option Str :=
  match s with
  | '\\' :: rest =>
    let afterSubs := rest.drop (3 * maxSubs rest)
    if lstartsWith afterSubs (String.toList "section\x7b") then
      let body := afterSubs.drop 8
      let cap := body.takeWhile (fun c => c != '\x7d')
      if (!cap.isEmpty) && lstartsWith (body.drop cap.length) ['\x7d'] then some cap
      else none
    else none
  | _ => none

/-- `re.search` of the heading-title pattern over the block. -/
def searchSectionArg : Str → Option Str
  | [] => none
  | s@(_ :: rest) =>
    match matchSectionAt s with
    | some cap => some cap
    | none => searchSectionArg rest

/-- `_process_section`: extract the braced title, unescape it, add a heading;
if the pattern is not found the block contributes nothing. -/
def process_section (block : Str) (level : Nat) : List DocItem :=
  match searchSectionArg block with
  | none => []
  | some title => [.heading level (unescape_latex title)]

/-- `re.search` for a begin literal followed lazily by the first occurrence of
the end literal (the `(.*?)` idiom with `re.DOTALL`): at each position, if the
begin literal matches, the body runs to the first end literal after it; if no
end follows, the engine retries at later positions. -/
def searchLazySpan (b e : Str) : Str → Option Str
  | [] => none
  | s@(_ :: rest) =>
    if lstartsWith s b then
      match findSubIdx e (s.drop b.length) with
      | some j => some ((s.drop b.length).take j)
      | none => searchLazySpan b e rest
    else searchLazySpan b e rest

def beginTabular : Str := String.toList "\\begin\x7btabular\x7d\x7b"
def endTabular : Str := String.toList "\\end\x7btabular\x7d"

/-- Match the tabular extraction pattern at one position: the begin literal,
a non-empty brace-free column spec, its closing brace, then lazily the first
`\end\x7btabular\x7d`. -/
def matchTabularAt (s : Str) : Option Str :=
  if lstartsWith s beginTabular then
    let afterB := s.drop beginTabular.length
    let spec := afterB.takeWhile (fun c => c != '\x7d')
    if (!spec.isEmpty) && lstartsWith (afterB.drop spec.length) ['\x7d'] then
      let body := afterB.drop (spec.length + 1)
      match findSubIdx endTabular body with
      | some j => some (body.take j)
      | none => none
    else none
  else none

/-- `re.search` of the tabular pattern over the block. -/
def extractTabular : Str → Option Str
  | [] => none
  | s@(_ :: rest) =>
    match matchTabularAt s with
    | some inner => some inner
    | none => extractTabular rest

/-- Rows of `_process_table`: split the inner content on the row terminator,
strip, drop empties, then drop every row starting with a backslash. -/
def tableRows (inner : Str) : List Str :=
  (((splitOnSub ['\\', '\\'] inner).map pyStrip).filter (fun r => !r.isEmpty)).filter
    (fun r => !lstartsWith r ['\\'])

/-- The cell texts of one row: split on the column separator, strip, unescape. -/
def rowCells (r : Str) : List Str :=
  (splitOnSub ['&'] r).map (fun c => unescape_latex (pyStrip c))

/-- One row of the rectangular output table: `numCols` cells, cell `j` holding
the `j`-th provided cell text when it exists and the initial empty text
otherwise (the `j < num_cols` assignment loop over an `add_table` grid). -/
def fillRow (numCols : Nat) (cells : List Str) : List Str :=
  (List.range numCols).map (fun j => cells.getD j [])

/-- `_process_table`: `none` models the early returns that add no table. -/
def process_table (block : Str) : Option (List (List Str)) :=
  match extractTabular block with
  | none => none
  | some inner =>
    match tableRows inner with
    | [] => none
    | r0 :: rs =>
      let numCols := (splitOnSub ['&'] r0).length
      some ((r0 :: rs).map (fun r => fillRow numCols (rowCells r)))

/-- The `\s+` / `[^\\\n]+` part of the item pattern after `\item`, trying the
greedy whitespace width `w` first and backtracking downwards; the capture is
the maximal run of characters that are neither backslash nor newline. -/
def tryItemW (t : Str) : Nat → Option (Str × Nat)
  | 0 => none
  | Nat.succ w =>
    let cap := (t.drop (w + 1)).takeWhile (fun c => c != '\\' && c != '\n')
    if !cap.isEmpty then some (cap, 5 + (w + 1) + cap.length)
    else tryItemW t w

/-- Match the item pattern at the start of `s`; returns capture and full match
length. -/
def matchItemAt (s : Str) : Option (Str × Nat) :=
  if lstartsWith s (String.toList "\\item") then
    let t := s.drop 5
    tryItemW t ((t.takeWhile pyWsChar).length)
  else none

/-- `re.findall` of the item pattern: leftmost matches, non-overlapping,
resuming after each full match.  Fuel `s.length` suffices: every step consumes
at least one character. -/
def findItemsAux : Nat → Str → List Str
  | 0, _ => []
  | _, [] => []
  | Nat.succ fuel, s@(_ :: rest) =>
    match matchItemAt s with
    | some (cap, len) => cap :: findItemsAux fuel (s.drop len)
    | none => findItemsAux fuel rest

def findItems (s : Str) : List Str := findItemsAux s.length s

/-- `_process_list`: the numbered style iff the enumerate marker occurs in the
block; one styled paragraph per found item, stripped then unescaped. -/
def process_list (block : Str) : List DocItem :=
  let isNumbered := occursIn (String.toList "\\begin\x7benumerate\x7d") block
  (findItems block).map (fun it =>
    .styledPara (unescape_latex (pyStrip it))
      (if isNumbered then String.toList "List Number" else String.toList "List Bullet"))

/-- `_process_centered_text`. -/
def process_centered (block : Str) : List DocItem :=
  match searchLazySpan (String.toList "\\begin\x7bcenter\x7d")
      (String.toList "\\end\x7bcenter\x7d") block with
  | none => []
  | some content => [.centerPara (unescape_latex (pyStrip content))]

/-- Match the include-graphics pattern at the start of `s`.  When a `[` is
present, the greedy optional bracket group is tried first; if the bracket
group fails, or the braced path after it fails, the option backtracks to the
empty match, where `[` then fails against `\x7b` — so this position fails. -/
def matchIncludeGraphicsAt (s : Str) : Option Str :=
  if lstartsWith s (String.toList "\\includegraphics") then
    let t := s.drop 16
    let afterOpt : Option Str :=
      match t with
      | '[' :: t1 =>
        let o := t1.takeWhile (fun c => c != ']')
        if (!o.isEmpty) && lstartsWith (t1.drop o.length) [']'] then
          some (t1.drop (o.length + 1))
        else none
      | _ => some t
    match afterOpt with
    | none => none
    | some t2 =>
      match t2 with
      | '\x7b' :: t3 =>
        let cap := t3.takeWhile (fun c => c != '\x7d')
        if (!cap.isEmpty) && lstartsWith (t3.drop cap.length) ['\x7d'] then some cap
        else none
      | _ => none
  else none

def searchIncludeGraphics : Str → Option Str
  | [] => none
  | s@(_ :: rest) =>
    match matchIncludeGraphicsAt s with
    | some p => some p
    | none => searchIncludeGraphics rest

def process_figure (block : Str) : List DocItem :=
  match searchIncludeGraphics block with
  | none => []
  | some path => [.figure path]

/-- `_process_paragraph` of `docx.py`. -/
def process_paragraph (block : Str) : List DocItem :=
  if (pyStrip block).isEmpty then [] else [.para (parseInline block)]

/-- `_process_block`: the fixed-priority block classification. -/
def process_block (block : Str) : List DocItem :=
  if lstartsWith block (String.toList "\\section") then process_section block 1
  else if lstartsWith block (String.toList "\\subsection") then process_section block 2
  else if lstartsWith block (String.toList "\\subsubsection") then process_section block 3
  else if occursIn (String.toList "\\begin\x7btable\x7d") block then
    match process_table block with
    | none => []
    | some cells => [.table cells]
  else if occursIn (String.toList "\\begin\x7bfigure\x7d") block then process_figure block
  else if occursIn (String.toList "\\begin\x7bitemize\x7d") block
      || occursIn (String.toList "\\begin\x7benumerate\x7d") block then process_list block
  else if occursIn (String.toList "\\begin\x7bcenter\x7d") block then process_centered block
  else process_paragraph block

def beginDocument : Str := String.toList "\\begin\x7bdocument\x7d"
def endDocument : Str := String.toList "\\end\x7bdocument\x7d"

/-- The envelope strip of `_parse_latex`: body between the document markers
when the pattern matches, the whole input otherwise. -/
def stripEnvelope (content : Str) : Str :=
  match searchLazySpan beginDocument endDocument content with
  | some body => body
  | none => content

/-! ### Lemmas: token maps and `replaceAll` -/

/-- Concatenation of per-character token strings. -/
def tmap (f : Char → Str) : Str → Str
  | [] => []
  | c :: s => f c ++ tmap f s

theorem tmap_singleton (f : Char → Str) (c : Char) : tmap f [c] = f c := by
  simp [tmap]

theorem tmap_append (f : Char → Str) (a b : Str) :
    tmap f (a ++ b) = tmap f a ++ tmap f b := by
  induction a with
  | nil => rfl
  | cons c a ih => simp [tmap, ih]

theorem tmap_congr {f g : Char → Str} (h : ∀ c, f c = g c) (t : Str) :
    tmap f t = tmap g t := by
  induction t with
  | nil => rfl
  | cons c t ih => simp [tmap, ih, h c]

theorem tmap_id (t : Str) : tmap (fun c => [c]) t = t := by
  induction t with
  | nil => rfl
  | cons c t ih => simp [tmap, ih]

theorem tmap_comp (f g : Char → Str) (t : Str) :
    tmap g (tmap f t) = tmap (fun c => tmap g (f c)) t := by
  induction t with
  | nil => rfl
  | cons c t ih => simp [tmap, tmap_append, ih]

theorem lsw_nil (s : Str) : lstartsWith s [] = true := by
  cases s <;> rfl

theorem lsw_length : ∀ {s p : Str}, lstartsWith s p = true → p.length ≤ s.length := by
  intro s
  induction s with
  | nil => intro p h; cases p with
    | nil => simp
    | cons q ps => simp [lstartsWith] at h
  | cons c s ih =>
    intro p h
    cases p with
    | nil => simp
    | cons q ps =>
      simp only [lstartsWith, Bool.and_eq_true] at h
      have := ih h.2
      simp [List.length_cons]
      omega

theorem lsw_append_left {a p : Str} (h : lstartsWith a p = true) (b : Str) :
    lstartsWith (a ++ b) p = true := by
  induction a generalizing p with
  | nil => cases p with
    | nil => exact lsw_nil b
    | cons q ps => simp [lstartsWith] at h
  | cons c a ih =>
    cases p with
    | nil => exact lsw_nil _
    | cons q ps =>
      simp only [lstartsWith, Bool.and_eq_true] at h ⊢
      exact ⟨h.1, ih h.2⟩

theorem lsw_append_long {a p : Str} (h : p.length ≤ a.length) (b : Str) :
    lstartsWith (a ++ b) p = lstartsWith a p := by
  induction a generalizing p with
  | nil =>
    cases p with
    | nil => simp [lsw_nil]
    | cons q ps => simp at h
  | cons c a ih =>
    cases p with
    | nil => simp [lsw_nil]
    | cons q ps =>
      simp only [List.cons_append, lstartsWith, List.append_eq]
      rw [ih (by simpa using h)]

theorem lsw_rev : ∀ {a p : Str}, a.length ≤ p.length →
    ∀ {b : Str}, lstartsWith (a ++ b) p = true → lstartsWith p a = true := by
  intro a
  induction a with
  | nil => intro p _ b _; exact lsw_nil p
  | cons c a ih =>
    intro p hl b h
    cases p with
    | nil => simp at hl
    | cons q ps =>
      simp only [List.cons_append, lstartsWith, Bool.and_eq_true] at h ⊢
      refine ⟨?_, ih (by simpa using hl) h.2⟩
      have : c = q := by simpa using h.1
      simp [this]

theorem drop_append_le {a : Str} : ∀ {n : Nat}, n ≤ a.length →
    ∀ (b : Str), (a ++ b).drop n = a.drop n ++ b := by
  induction a with
  | nil => intro n h b; simp at h; simp [h]
  | cons c a ih =>
    intro n h b
    cases n with
    | zero => simp
    | succ n => simpa using ih (by simpa using h) b

theorem replaceGo_skip (pat repl : Str) :
    ∀ (s : Str) (k : Nat), replaceGo pat repl s k = replaceGo pat repl (s.drop k) 0 := by
  intro s
  induction s with
  | nil => intro k; cases k <;> rfl
  | cons c rest ih =>
    intro k
    cases k with
    | zero => rfl
    | succ k => simpa [replaceGo] using ih k

theorem replaceAll_nil (pat repl : Str) : replaceAll pat repl [] = [] := rfl

theorem replaceAll_cons (pat repl : Str) (hp : pat ≠ []) (c : Char) (rest : Str) :
    replaceAll pat repl (c :: rest) =
      if lstartsWith (c :: rest) pat then
        repl ++ replaceAll pat repl ((c :: rest).drop pat.length)
      else c :: replaceAll pat repl rest := by
  cases pat with
  | nil => exact absurd rfl hp
  | cons q ps =>
    show replaceGo _ _ (c :: rest) 0 = _
    simp only [replaceGo]
    split
    · rw [replaceGo_skip]
      have e : List.drop ((q :: ps).length - 1) rest =
          List.drop (q :: ps).length (c :: rest) := by
        simp
      rw [e]
      rfl
    · rfl

theorem replaceAll_single (p : Char) (r : Str) (s : Str) :
    replaceAll [p] r s = tmap (fun c => if c == p then r else [c]) s := by
  induction s with
  | nil => rfl
  | cons c rest ih =>
    rw [replaceAll_cons [p] r (by simp) c rest]
    have hsw : lstartsWith (c :: rest) [p] = (c == p) := by
      simp [lstartsWith, lsw_nil]
    rw [hsw]
    by_cases h : c = p
    · simp [tmap, h, ih]
    · simp only [tmap]
      rw [if_neg (by simpa using h), ih]
      simp [h]

/-- `a` never ends in a dangling proper prefix of `p`: every suffix of `a`
that `p` extends is in fact fully matched inside `a`. -/
def noStraddle (p a : Str) : Prop :=
  ∀ k, k < a.length → lstartsWith p (a.drop k) = true → lstartsWith (a.drop k) p = true

instance (p a : Str) : Decidable (noStraddle p a) := by
  unfold noStraddle
  infer_instance

theorem noStraddle_drop {p a : Str} (h : noStraddle p a) (m : Nat) :
    noStraddle p (a.drop m) := by
  intro k hk hp
  have hlen : m + k < a.length := by
    have := a.length_drop m
    omega
  have e : (a.drop m).drop k = a.drop (m + k) := by
    simp [List.drop_drop, Nat.add_comm]
  rw [e] at hp ⊢
  exact h (m + k) hlen hp

theorem replaceAll_append_aux (p r : Str) (hp : p ≠ []) :
    ∀ (n : Nat) (a b : Str), a.length ≤ n → noStraddle p a →
      replaceAll p r (a ++ b) = replaceAll p r a ++ replaceAll p r b := by
  intro n
  induction n with
  | zero =>
    intro a b ha _
    have : a = [] := by
      cases a with
      | nil => rfl
      | cons c a' => simp at ha
    subst this
    simp [replaceAll_nil]
  | succ n ih =>
    intro a b ha hns
    cases a with
    | nil => simp [replaceAll_nil]
    | cons c a' =>
      have e1 : (c :: a') ++ b = c :: (a' ++ b) := rfl
      by_cases hsw : lstartsWith ((c :: a') ++ b) p = true
      · have hlen : p.length ≤ (c :: a').length := by
          by_contra hgt
          push_neg at hgt
          have hrev : lstartsWith p (c :: a') = true := lsw_rev (le_of_lt hgt) hsw
          have h0 := hns 0 (by simp) (by simpa using hrev)
          have := lsw_length h0
          simp only [List.length_cons] at hgt
          simp at this
          omega
        have hswa : lstartsWith (c :: a') p = true := by
          rw [lsw_append_long hlen] at hsw
          exact hsw
        rw [e1] at hsw ⊢
        rw [replaceAll_cons p r hp, if_pos hsw,
            replaceAll_cons p r hp, if_pos hswa]
        have e2 : (c :: (a' ++ b)).drop p.length = (c :: a').drop p.length ++ b := by
          rw [← e1]
          exact drop_append_le hlen b
        rw [e2, ih ((c :: a').drop p.length) b
          (by rw [List.length_drop]
              have hp1 : 1 ≤ p.length := by
                cases p with
                | nil => exact absurd rfl hp
                | cons q ps => simp
              omega)
          (noStraddle_drop hns p.length)]
        simp
      · have hswa : lstartsWith (c :: a') p = false := by
          by_contra hcon
          rw [Bool.not_eq_false] at hcon
          exact hsw (lsw_append_left hcon b)
        rw [e1] at hsw ⊢
        rw [replaceAll_cons p r hp, if_neg (by simpa using hsw),
            replaceAll_cons p r hp, if_neg (by simp [hswa])]
        rw [ih a' b (by simpa using ha) (by simpa using noStraddle_drop hns 1)]
        rfl

theorem replaceAll_append {p r : Str} (hp : p ≠ []) {a : Str}
    (hns : noStraddle p a) (b : Str) :
    replaceAll p r (a ++ b) = replaceAll p r a ++ replaceAll p r b :=
  replaceAll_append_aux p r hp a.length a b le_rfl hns

theorem replaceAll_tmap (p r : Str) (hp : p ≠ []) (g : Char → Str)
    (hg : ∀ c, noStraddle p (g c)) (t : Str) :
    replaceAll p r (tmap g t) = tmap (fun c => replaceAll p r (g c)) t := by
  induction t with
  | nil => rfl
  | cons c t ih =>
    show replaceAll p r (g c ++ tmap g t) = _
    rw [replaceAll_append hp (hg c), ih]
    rfl

/-! ### The per-character token view of the codec -/

/-- The per-character token of `escape_latex`'s output after the first `i`
unescape passes (pass order = table order).  `utok 0` describes the raw
output of `escape_latex`; note the backslash token is the corrupted
`\textbackslash\x7b\x7d` with both braces re-escaped by the later brace
substitutions of `escape_latex`. -/
def utok (i : Nat) (c : Char) : Str :=
  if c == '&' then if 1 ≤ i then [c] else ['\\', c]
  else if c == '%' then if 2 ≤ i then [c] else ['\\', c]
  else if c == '$' then if 3 ≤ i then [c] else ['\\', c]
  else if c == '#' then if 4 ≤ i then [c] else ['\\', c]
  else if c == '_' then if 5 ≤ i then [c] else ['\\', c]
  else if c == '\x7b' then if 6 ≤ i then [c] else ['\\', c]
  else if c == '\x7d' then if 7 ≤ i then [c] else ['\\', c]
  else if c == '~' then if 8 ≤ i then [c] else String.toList "\\textasciitilde\x7b\x7d"
  else if c == '^' then if 9 ≤ i then [c] else String.toList "\\textasciicircum\x7b\x7d"
  else if c == '\\' then
    if 10 ≤ i then [c]
    else if 7 ≤ i then String.toList "\\textbackslash\x7b\x7d"
    else if 6 ≤ i then String.toList "\\textbackslash\x7b\\\x7d"
    else String.toList "\\textbackslash\\\x7b\\\x7d"
  else [c]

theorem escape_unfold (t : Str) : escape_latex t =
    replaceAll ['^'] (String.toList "\\textasciicircum\x7b\x7d")
     (replaceAll ['~'] (String.toList "\\textasciitilde\x7b\x7d")
      (replaceAll ['\x7d'] ['\\', '\x7d']
       (replaceAll ['\x7b'] ['\\', '\x7b']
        (replaceAll ['_'] ['\\', '_']
         (replaceAll ['#'] ['\\', '#']
          (replaceAll ['$'] ['\\', '$']
           (replaceAll ['%'] ['\\', '%']
            (replaceAll ['&'] ['\\', '&']
             (replaceAll ['\\'] (String.toList "\\textbackslash\x7b\x7d") t))))))))) := rfl

/-- `escape_latex` is the concatenation of per-character tokens. -/
theorem escape_eq (t : Str) : escape_latex t = tmap (utok 0) t := by
  rw [escape_unfold]
  simp only [replaceAll_single, tmap_comp]
  refine tmap_congr (fun c => ?_) t
  by_cases h1 : c = '&'
  · subst h1; decide
  by_cases h2 : c = '%'
  · subst h2; decide
  by_cases h3 : c = '$'
  · subst h3; decide
  by_cases h4 : c = '#'
  · subst h4; decide
  by_cases h5 : c = '_'
  · subst h5; decide
  by_cases h6 : c = '\x7b'
  · subst h6; decide
  by_cases h7 : c = '\x7d'
  · subst h7; decide
  by_cases h8 : c = '~'
  · subst h8; decide
  by_cases h9 : c = '^'
  · subst h9; decide
  by_cases h10 : c = '\\'
  · subst h10; decide
  simp [tmap_singleton, utok, h1, h2, h3, h4, h5, h6, h7, h8, h9, h10]

theorem unescape_unfold (t : Str) : unescape_latex t =
    replaceAll (String.toList "\\textbackslash\x7b\x7d") ['\\']
     (replaceAll (String.toList "\\textasciicircum\x7b\x7d") ['^']
      (replaceAll (String.toList "\\textasciitilde\x7b\x7d") ['~']
       (replaceAll ['\\', '\x7d'] ['\x7d']
        (replaceAll ['\\', '\x7b'] ['\x7b']
         (replaceAll ['\\', '_'] ['_']
          (replaceAll ['\\', '#'] ['#']
           (replaceAll ['\\', '$'] ['$']
            (replaceAll ['\\', '%'] ['%']
             (replaceAll ['\\', '&'] ['&'] t))))))))) := rfl

theorem noStraddle_single (p : Str) (c : Char) (hph : p.head? = some '\\')
    (hc : c ≠ '\\') : noStraddle p [c] := by
  intro k hk h
  have hk0 : k = 0 := by simpa using hk
  subst hk0
  simp only [List.drop_zero] at h ⊢
  cases p with
  | nil => simp at hph
  | cons q ps =>
    simp only [lstartsWith, Bool.and_eq_true] at h
    have hq : q = c := by simpa using h.1
    have hq' : q = '\\' := by simpa using hph
    exact absurd (hq.symm.trans hq') hc

theorem replaceAll_short {p : Str} (hp2 : 2 ≤ p.length) (r : Str) (c : Char) :
    replaceAll p r [c] = [c] := by
  have hp : p ≠ [] := by
    intro h
    subst h
    simp at hp2
  rw [replaceAll_cons p r hp]
  have hf : lstartsWith [c] p = false := by
    by_contra h
    rw [Bool.not_eq_false] at h
    have := lsw_length h
    simp at this
    omega
  rw [hf]
  simp [replaceAll_nil]

def specialChars : List Char :=
  ['&', '%', '$', '#', '_', '\x7b', '\x7d', '~', '^', '\\']

theorem utok_other {c : Char} (h1 : c ≠ '&') (h2 : c ≠ '%') (h3 : c ≠ '$')
    (h4 : c ≠ '#') (h5 : c ≠ '_') (h6 : c ≠ '\x7b') (h7 : c ≠ '\x7d')
    (h8 : c ≠ '~') (h9 : c ≠ '^') (h10 : c ≠ '\\') (i : Nat) : utok i c = [c] := by
  simp [utok, h1, h2, h3, h4, h5, h6, h7, h8, h9, h10]

/-- One unescape pass, per character: on the ten special characters the pass
behaves as checked by `decide`; on every other character the current token is
the character itself, too short for the pattern to touch. -/
theorem ustep_gen (p : Str) (rch : Char) (i j : Nat)
    (hph : p.head? = some '\\') (hp2 : 2 ≤ p.length)
    (hspec : ∀ c ∈ specialChars,
      noStraddle p (utok i c) ∧ replaceAll p [rch] (utok i c) = utok j c) :
    ∀ c, noStraddle p (utok i c) ∧ replaceAll p [rch] (utok i c) = utok j c := by
  intro c
  by_cases hm : c ∈ specialChars
  · exact hspec c hm
  · have hn : ¬(c = '&' ∨ c = '%' ∨ c = '$' ∨ c = '#' ∨ c = '_' ∨ c = '\x7b'
        ∨ c = '\x7d' ∨ c = '~' ∨ c = '^' ∨ c = '\\') := by
      simpa [specialChars] using hm
    push_neg at hn
    obtain ⟨n1, n2, n3, n4, n5, n6, n7, n8, n9, n10⟩ := hn
    rw [utok_other n1 n2 n3 n4 n5 n6 n7 n8 n9 n10 i,
        utok_other n1 n2 n3 n4 n5 n6 n7 n8 n9 n10 j]
    exact ⟨noStraddle_single p c hph n10, replaceAll_short hp2 _ c⟩

theorem utok_ten (c : Char) : utok 10 c = [c] := by
  by_cases hm : c ∈ specialChars
  · have h : ∀ c ∈ specialChars, utok 10 c = [c] := by decide
    exact h c hm
  · have hn : ¬(c = '&' ∨ c = '%' ∨ c = '$' ∨ c = '#' ∨ c = '_' ∨ c = '\x7b'
        ∨ c = '\x7d' ∨ c = '~' ∨ c = '^' ∨ c = '\\') := by
      simpa [specialChars] using hm
    push_neg at hn
    obtain ⟨n1, n2, n3, n4, n5, n6, n7, n8, n9, n10⟩ := hn
    exact utok_other n1 n2 n3 n4 n5 n6 n7 n8 n9 n10 10

/-- The escape/unescape codec of `utils.py` round-trips every text: the ten
sequential unescape replacements exactly invert the per-character tokens
produced by `escape_latex`, including the corrupted backslash token. -/
theorem unescape_escape (t : Str) : unescape_latex (escape_latex t) = t := by
  rw [escape_eq, unescape_unfold]
  have s1 := ustep_gen ['\\', '&'] '&' 0 1 rfl (by decide) (by decide)
  have s2 := ustep_gen ['\\', '%'] '%' 1 2 rfl (by decide) (by decide)
  have s3 := ustep_gen ['\\', '$'] '$' 2 3 rfl (by decide) (by decide)
  have s4 := ustep_gen ['\\', '#'] '#' 3 4 rfl (by decide) (by decide)
  have s5 := ustep_gen ['\\', '_'] '_' 4 5 rfl (by decide) (by decide)
  have s6 := ustep_gen ['\\', '\x7b'] '\x7b' 5 6 rfl (by decide) (by decide)
  have s7 := ustep_gen ['\\', '\x7d'] '\x7d' 6 7 rfl (by decide) (by decide)
  have s8 := ustep_gen (String.toList "\\textasciitilde\x7b\x7d") '~' 7 8 rfl
    (by decide) (by decide)
  have s9 := ustep_gen (String.toList "\\textasciicircum\x7b\x7d") '^' 8 9 rfl
    (by decide) (by decide)
  have s10 := ustep_gen (String.toList "\\textbackslash\x7b\x7d") '\\' 9 10 rfl
    (by decide) (by decide)
  rw [replaceAll_tmap _ _ (by decide) _ (fun c => (s1 c).1),
      tmap_congr (fun c => (s1 c).2)]
  rw [replaceAll_tmap _ _ (by decide) _ (fun c => (s2 c).1),
      tmap_congr (fun c => (s2 c).2)]
  rw [replaceAll_tmap _ _ (by decide) _ (fun c => (s3 c).1),
      tmap_congr (fun c => (s3 c).2)]
  rw [replaceAll_tmap _ _ (by decide) _ (fun c => (s4 c).1),
      tmap_congr (fun c => (s4 c).2)]
  rw [replaceAll_tmap _ _ (by decide) _ (fun c => (s5 c).1),
      tmap_congr (fun c => (s5 c).2)]
  rw [replaceAll_tmap _ _ (by decide) _ (fun c => (s6 c).1),
      tmap_congr (fun c => (s6 c).2)]
  rw [replaceAll_tmap _ _ (by decide) _ (fun c => (s7 c).1),
      tmap_congr (fun c => (s7 c).2)]
  rw [replaceAll_tmap _ _ (by decide) _ (fun c => (s8 c).1),
      tmap_congr (fun c => (s8 c).2)]
  rw [replaceAll_tmap _ _ (by decide) _ (fun c => (s9 c).1),
      tmap_congr (fun c => (s9 c).2)]
  rw [replaceAll_tmap _ _ (by decide) _ (fun c => (s10 c).1),
      tmap_congr (fun c => (s10 c).2)]
  rw [tmap_congr utok_ten]
  exact tmap_id t

/-! ### Heading generation helpers -/

theorem process_heading_fallback {styleName : Str}
    (h1 : occursIn (String.toList "Heading 1") styleName = false)
    (h2 : occursIn (String.toList "Heading 2") styleName = false)
    (h3 : occursIn (String.toList "Heading 3") styleName = false)
    (h4 : occursIn (String.toList "Heading 4") styleName = false) (t : Str) :
    process_heading styleName t =
      String.toList "\\subparagraph\x7b" ++ escape_latex t ++ ['\x7d'] := by
  simp only [process_heading, h1, h2, h3, h4]
  simp

theorem genHeadingCmd_four (t : Str) :
    genHeadingCmd 4 t = String.toList "\\paragraph\x7b" ++ escape_latex t ++ ['\x7d'] := by
  have h1 : occursIn (String.toList "Heading 1") (headingStyleName 4) = false := by decide
  have h2 : occursIn (String.toList "Heading 2") (headingStyleName 4) = false := by decide
  have h3 : occursIn (String.toList "Heading 3") (headingStyleName 4) = false := by decide
  have h4 : occursIn (String.toList "Heading 4") (headingStyleName 4) = true := by decide
  simp only [genHeadingCmd, process_heading, h1, h2, h3, h4]
  simp

theorem genHeadingCmd_one (t : Str) :
    genHeadingCmd 1 t = String.toList "\\section\x7b" ++ escape_latex t ++ ['\x7d'] := by
  have h1 : occursIn (String.toList "Heading 1") (headingStyleName 1) = true := by decide
  simp only [genHeadingCmd, process_heading, h1]
  simp

theorem genHeadingCmd_two (t : Str) :
    genHeadingCmd 2 t = String.toList "\\subsection\x7b" ++ escape_latex t ++ ['\x7d'] := by
  have h1 : occursIn (String.toList "Heading 1") (headingStyleName 2) = false := by decide
  have h2 : occursIn (String.toList "Heading 2") (headingStyleName 2) = true := by decide
  simp only [genHeadingCmd, process_heading, h1, h2]
  simp

theorem genHeadingCmd_three (t : Str) :
    genHeadingCmd 3 t = String.toList "\\subsubsection\x7b" ++ escape_latex t ++ ['\x7d'] := by
  have h1 : occursIn (String.toList "Heading 1") (headingStyleName 3) = false := by decide
  have h2 : occursIn (String.toList "Heading 2") (headingStyleName 3) = false := by decide
  have h3 : occursIn (String.toList "Heading 3") (headingStyleName 3) = true := by decide
  simp only [genHeadingCmd, process_heading, h1, h2, h3]
  simp

end DocTex

namespace DocTex

/-- C1.  For every text `t` containing no escape sequence of the table,
`unescape_latex (escape_latex t) = t`. -/
theorem C1_escape_unescape_roundtrip (t : Str)
    (_h : ∀ p ∈ LATEX_SPECIAL_CHARS, occursIn p.2 t = false) :
    unescape_latex (escape_latex t) = t :=
  unescape_escape t

/-- Witness for C1 at the concrete text `a&b ~ x\y`. -/
theorem C1_escape_unescape_roundtrip_witness :
    (∀ p ∈ LATEX_SPECIAL_CHARS, occursIn p.2 (String.toList "a&b ~ x\\y") = false) ∧
    unescape_latex (escape_latex (String.toList "a&b ~ x\\y")) = String.toList "a&b ~ x\\y" :=
  ⟨by decide, C1_escape_unescape_roundtrip (String.toList "a&b ~ x\\y") (by decide)⟩

/-- C2.  Evaluation at the failing input: the nine non-backslash characters
escape exactly to their table sequences, but the lone backslash escapes to
`\textbackslash\x7b\x7d` with both braces of the inserted sequence re-escaped
by the later brace substitutions — not to the table's intact sequence. -/
theorem C2_escape_table_eval :
    (∀ p ∈ LATEX_SPECIAL_CHARS, p.1 ≠ '\\' → escape_latex [p.1] = p.2) ∧
    LATEX_SPECIAL_CHARS.lookup '\\' = some (String.toList "\\textbackslash\x7b\x7d") ∧
    escape_latex ['\\'] = String.toList "\\textbackslash\\\x7b\\\x7d" ∧
    escape_latex ['\\'] ≠ String.toList "\\textbackslash\x7b\x7d" := by
  decide

/-- Witness for C2's quantified part at the table entry for `&`. -/
theorem C2_escape_table_eval_witness : escape_latex ['&'] = ['\\', '&'] :=
  C2_escape_table_eval.1 ('&', ['\\', '&']) (by decide) (by decide)

/-- C4, counterexample.  A level-5 heading does not emit level 4's command:
level 5 yields the subparagraph command, level 4 the paragraph command. -/
theorem C4_counterexample :
    genHeadingCmd 5 ['T'] = String.toList "\\subparagraph\x7bT\x7d" ∧
    genHeadingCmd 4 ['T'] = String.toList "\\paragraph\x7bT\x7d" ∧
    genHeadingCmd 5 ['T'] ≠ genHeadingCmd 4 ['T'] := by
  decide

/-- C4, amended.  For every heading level in 5..9 the generator emits the
subparagraph fallback command — one step deeper than level 4's paragraph
command — and in particular not level 4's command. -/
theorem C4_heading_fallback (level : Nat) (t : Str) (h5 : 5 ≤ level) (h9 : level ≤ 9) :
    genHeadingCmd level t = String.toList "\\subparagraph\x7b" ++ escape_latex t ++ ['\x7d'] ∧
    genHeadingCmd level t ≠ genHeadingCmd 4 t := by
  have hne : ∀ u : Str,
      String.toList "\\subparagraph\x7b" ++ escape_latex u ++ ['\x7d'] ≠ genHeadingCmd 4 u := by
    intro u heq
    rw [genHeadingCmd_four u] at heq
    have := congrArg List.length heq
    simp at this
    omega
  interval_cases level <;>
    refine ⟨process_heading_fallback (by decide) (by decide) (by decide) (by decide) t, ?_⟩ <;>
    · show process_heading _ t ≠ _
      rw [process_heading_fallback (by decide) (by decide) (by decide) (by decide) t]
      exact hne t

/-- Witness for C4 at level 5 and text `T`. -/
theorem C4_heading_fallback_witness :
    genHeadingCmd 5 ['T'] = String.toList "\\subparagraph\x7bT\x7d" ∧
    genHeadingCmd 5 ['T'] ≠ genHeadingCmd 4 ['T'] := by
  have h := C4_heading_fallback 5 ['T'] (by decide) (by decide)
  exact ⟨h.1.trans (by decide), h.2⟩

/-- C5, counterexample.  A bold run with a hyperlink target renders with the
bold wrapper inside the link argument, not with plain text. -/
theorem C5_counterexample :
    renderRun ⟨['x'], true, false, false, some ['u']⟩ =
      String.toList "\\href\x7bu\x7d\x7b\\textbf\x7bx\x7d\x7d" ∧
    renderRun ⟨['x'], true, false, false, some ['u']⟩ ≠
      String.toList "\\href\x7bu\x7d\x7bx\x7d" := by
  decide

/-- The escaped run text wrapped by the formatting flags, bold innermost, then
italic, then underline (the pre-link part of `_process_paragraph`). -/
def formattedRunText (run : SrcRun) : Str :=
  let t := escape_latex run.text
  let t := if run.bold then String.toList "\\textbf\x7b" ++ t ++ ['\x7d'] else t
  let t := if run.italic then String.toList "\\textit\x7b" ++ t ++ ['\x7d'] else t
  if run.underline then String.toList "\\underline\x7b" ++ t ++ ['\x7d'] else t

/-- C5, amended.  A run carrying a non-empty hyperlink target renders as the
link command wrapping the escaped-and-formatted text: the bold, italic and
underline flags are preserved, their wrappers appearing inside the link
command's text argument. -/
theorem C5_link_wraps_formatted (run : SrcRun) (url : Str)
    (hl : run.link = some url) (hu : url ≠ []) :
    renderRun run = String.toList "\\href\x7b" ++ url ++ String.toList "\x7d\x7b"
      ++ formattedRunText run ++ ['\x7d'] := by
  have hue : url.isEmpty = false := by
    cases url with
    | nil => exact absurd rfl hu
    | cons a l => rfl
  simp [renderRun, formattedRunText, hl, hue]

/-- Witness for C5 at a run with all three flags and a link. -/
theorem C5_link_wraps_formatted_witness :
    renderRun ⟨['x'], true, true, true, some ['u']⟩ =
      String.toList "\\href\x7bu\x7d\x7b\\underline\x7b\\textit\x7b\\textbf\x7bx\x7d\x7d\x7d\x7d" :=
  (C5_link_wraps_formatted ⟨['x'], true, true, true, some ['u']⟩ ['u'] rfl (by decide)).trans
    (by decide)

/-! ### First-occurrence search lemmas -/

theorem findSubIdx_some {pat s : Str} {i : Nat} (h : findSubIdx pat s = some i) :
    lstartsWith (s.drop i) pat = true ∧ ∀ j, j < i → lstartsWith (s.drop j) pat = false := by
  induction s generalizing i with
  | nil =>
    simp only [findSubIdx] at h
    split at h
    · rename_i hsw
      obtain rfl : i = 0 := by
        cases h
        rfl
      exact ⟨hsw, by omega⟩
    · cases h
  | cons c rest ih =>
    simp only [findSubIdx] at h
    split at h
    · rename_i hsw
      obtain rfl : i = 0 := by
        cases h
        rfl
      exact ⟨hsw, by omega⟩
    · rename_i hsw
      rcases hi : findSubIdx pat rest with _ | i'
      · rw [hi] at h
        cases h
      · rw [hi] at h
        simp only [Option.map_some'] at h
        obtain rfl : i = i' + 1 := by
          cases h
          rfl
        obtain ⟨h1, h2⟩ := ih hi
        refine ⟨h1, fun j hj => ?_⟩
        cases j with
        | zero => simpa using hsw
        | succ j => exact h2 j (by omega)

theorem findSubIdx_none {pat s : Str} (h : findSubIdx pat s = none) :
    ∀ j, lstartsWith (s.drop j) pat = false := by
  induction s with
  | nil =>
    intro j
    simp only [findSubIdx] at h
    split at h
    · cases h
    · rename_i hsw
      simpa using hsw
  | cons c rest ih =>
    intro j
    simp only [findSubIdx] at h
    split at h
    · cases h
    · rename_i hsw
      cases j with
      | zero => simpa using hsw
      | succ j =>
        have : findSubIdx pat rest = none := by
          rcases hi : findSubIdx pat rest with _ | i'
          · rfl
          · rw [hi] at h
            simp at h
        exact ih this j

theorem findSubIdx_none_drop {pat s : Str} (h : findSubIdx pat s = none) (k : Nat) :
    findSubIdx pat (s.drop k) = none := by
  rcases hi : findSubIdx pat (s.drop k) with _ | i
  · rfl
  · have h1 := (findSubIdx_some hi).1
    have h2 := findSubIdx_none h (k + i)
    rw [List.drop_drop] at h1
    rw [h1] at h2
    cases h2

theorem searchLazySpan_found {b e : Str} (hb : b ≠ []) :
    ∀ (s : Str) (i j : Nat), findSubIdx b s = some i →
      findSubIdx e (s.drop (i + b.length)) = some j →
      searchLazySpan b e s = some ((s.drop (i + b.length)).take j) := by
  intro s
  induction s with
  | nil =>
    intro i j h1 _
    have := (findSubIdx_some h1).1
    simp only [List.drop_nil] at this
    cases b with
    | nil => exact absurd rfl hb
    | cons q ps => simp [lstartsWith] at this
  | cons c rest ih =>
    intro i j h1 h2
    simp only [findSubIdx] at h1
    split at h1
    · rename_i hsw
      obtain rfl : i = 0 := by
        cases h1
        rfl
      show (if lstartsWith (c :: rest) b then _ else _) = _
      rw [if_pos hsw]
      simp only [Nat.zero_add] at h2 ⊢
      simp only [h2]
    · rename_i hsw
      rcases hi : findSubIdx b rest with _ | i'
      · rw [hi] at h1
        cases h1
      · rw [hi] at h1
        simp only [Option.map_some'] at h1
        obtain rfl : i = i' + 1 := by
          cases h1
          rfl
        show (if lstartsWith (c :: rest) b then _ else _) = _
        rw [if_neg (by simp [hsw])]
        have e1 : (c :: rest).drop (i' + 1 + b.length) = rest.drop (i' + b.length) := by
          have : i' + 1 + b.length = (i' + b.length) + 1 := by omega
          rw [this]
          rfl
        rw [e1] at h2 ⊢
        exact ih i' j hi h2

theorem searchLazySpan_none_aux (b e : Str) :
    ∀ (s : Str), (∀ k, lstartsWith (s.drop k) b = true →
      findSubIdx e (s.drop (k + b.length)) = none) →
      searchLazySpan b e s = none := by
  intro s
  induction s with
  | nil => intro _; rfl
  | cons c rest ih =>
    intro h
    show (if lstartsWith (c :: rest) b then _ else _) = none
    have hrest : searchLazySpan b e rest = none := by
      refine ih (fun k hk => ?_)
      have := h (k + 1) (by simpa using hk)
      have e1 : (c :: rest).drop (k + 1 + b.length) = rest.drop (k + b.length) := by
        have : k + 1 + b.length = (k + b.length) + 1 := by omega
        rw [this]
        rfl
      rwa [e1] at this
    by_cases hsw : lstartsWith (c :: rest) b = true
    · rw [if_pos hsw]
      have := h 0 (by simpa using hsw)
      simp only [Nat.zero_add] at this
      rw [this]
      exact hrest
    · rw [if_neg hsw]
      exact hrest

theorem searchLazySpan_no_begin {b e s : Str} (h : findSubIdx b s = none) :
    searchLazySpan b e s = none := by
  refine searchLazySpan_none_aux b e s (fun k hk => ?_)
  have := findSubIdx_none h k
  rw [this] at hk
  cases hk

theorem searchLazySpan_no_end {b e s : Str} {i : Nat} (hi : findSubIdx b s = some i)
    (he : findSubIdx e (s.drop (i + b.length)) = none) :
    searchLazySpan b e s = none := by
  refine searchLazySpan_none_aux b e s (fun k hk => ?_)
  obtain ⟨h1, h2⟩ := findSubIdx_some hi
  have hik : i ≤ k := by
    by_contra hlt
    push_neg at hlt
    have := h2 k hlt
    rw [this] at hk
    cases hk
  have e1 : s.drop (k + b.length) = (s.drop (i + b.length)).drop (k - i) := by
    rw [List.drop_drop]
    congr 1
    omega
  rw [e1]
  exact findSubIdx_none_drop he (k - i)

end DocTex

namespace DocTex

/-- C9.  Envelope stripping: when the input has a document-begin marker (first
occurrence at `bi`) and a document-end marker somewhere after it (first such
occurrence at offset `j` past the begin marker), the body is exactly the span
between them — truncated at that first end occurrence; when no such pair
exists, the whole input is the body. -/
theorem C9_envelope_strip (content : Str) (bi j : Nat) :
    ((findSubIdx beginDocument content = some bi ∧
      findSubIdx endDocument (content.drop (bi + beginDocument.length)) = some j) →
      stripEnvelope content = (content.drop (bi + beginDocument.length)).take j) ∧
    (findSubIdx beginDocument content = none → stripEnvelope content = content) ∧
    ((findSubIdx beginDocument content = some bi ∧
      findSubIdx endDocument (content.drop (bi + beginDocument.length)) = none) →
      stripEnvelope content = content) := by
  refine ⟨fun ⟨h1, h2⟩ => ?_, fun h => ?_, fun ⟨h1, h2⟩ => ?_⟩
  · unfold stripEnvelope
    rw [searchLazySpan_found (by decide) content bi j h1 h2]
  · unfold stripEnvelope
    rw [searchLazySpan_no_begin h]
  · unfold stripEnvelope
    rw [searchLazySpan_no_end h1 h2]

/-- Witness for C9: a body containing the end marker verbatim is truncated at
that first occurrence (here the body is just `A`, not `A...B`). -/
theorem C9_envelope_strip_witness :
    stripEnvelope (String.toList
        "\\begin\x7bdocument\x7dA\\end\x7bdocument\x7dB\\end\x7bdocument\x7d")
      = ['A'] :=
  ((C9_envelope_strip (String.toList
      "\\begin\x7bdocument\x7dA\\end\x7bdocument\x7dB\\end\x7bdocument\x7d") 0 1).1
    ⟨by decide, by decide⟩).trans (by decide)

/-! ### Inline-scanner selection lemmas -/

theorem matchWrap_cap_ne {cmd s cap : Str} {len : Nat}
    (h : matchWrap cmd s = some (cap, len)) : cap ≠ [] := by
  unfold matchWrap at h
  split at h
  · simp only [] at h
    split at h
    · rename_i hg
      simp only [Bool.and_eq_true, Bool.not_eq_true'] at hg
      cases h
      intro he
      rw [he] at hg
      simp at hg
    · cases h
  · cases h

theorem matchHref_cap_ne {s cap : Str} {len : Nat}
    (h : matchHref s = some (cap, len)) : cap ≠ [] := by
  unfold matchHref at h
  split at h
  · simp only [] at h
    split at h
    · split at h
      · split at h
        · rename_i hg
          simp only [Bool.and_eq_true, Bool.not_eq_true'] at hg
          cases h
          intro he
          rw [he] at hg
          simp at hg
        · cases h
      · cases h
    · cases h
  · cases h

theorem searchPat_cap_ne {mm : Str → Option (Str × Nat)}
    (hm : ∀ s cap len, mm s = some (cap, len) → cap ≠ []) :
    ∀ (s : Str) (st : Nat) (cap : Str) (len : Nat),
      searchPat mm s = some (st, cap, len) → cap ≠ [] := by
  intro s
  induction s with
  | nil =>
    intro st cap len h
    cases h
  | cons c rest ih =>
    intro st cap len h
    simp only [searchPat] at h
    rcases hmc : mm (c :: rest) with _ | ⟨cap1, len1⟩
    · rw [hmc] at h
      rcases hsp : searchPat mm rest with _ | ⟨st2, cap2, len2⟩
      · rw [hsp] at h
        cases h
      · rw [hsp] at h
        simp only [Option.map_some'] at h
        obtain ⟨-, hcc, -⟩ : st2 + 1 = st ∧ cap2 = cap ∧ len2 = len := by
          simpa using h
        rw [← hcc]
        exact ih st2 cap2 len2 hsp
    · rw [hmc] at h
      cases h
      exact hm _ _ _ hmc

/-- Of two selections, keep the later one only when its start is strictly
smaller — the earlier wins ties. -/
def mergeSel (a b : Option PatMatch) : Option PatMatch :=
  match a, b with
  | none, b => b
  | some c, none => some c
  | some c, some m => if m.start < c.start then some m else some c

/-- The selection rule as the spec words it: the candidate with the lowest
start, the earliest in evaluation order winning ties. -/
def firstMin : List PatMatch → Option PatMatch
  | [] => none
  | m :: ms => mergeSel (some m) (firstMin ms)

/-- The four patterns' matches over `s`, in evaluation order
bold, italic, underline, hyperlink. -/
def candidates (s : Str) : List PatMatch :=
  inlinePatterns.filterMap
    (fun p => (searchPat p.2 s).map (fun r => PatMatch.mk p.1 r.1 r.2.1 r.2.2))

theorem mergeSel_assoc (a b c : Option PatMatch) :
    mergeSel (mergeSel a b) c = mergeSel a (mergeSel b c) := by
  rcases a with _ | x
  · rfl
  rcases b with _ | y
  · rfl
  rcases c with _ | z
  · show mergeSel (if y.start < x.start then some y else some x) none =
      mergeSel (some x) (some y)
    by_cases h1 : y.start < x.start
    · rw [if_pos h1]
      show some y = if y.start < x.start then some y else some x
      rw [if_pos h1]
    · rw [if_neg h1]
      show some x = if y.start < x.start then some y else some x
      rw [if_neg h1]
  show mergeSel (if y.start < x.start then some y else some x) (some z) =
    mergeSel (some x) (if z.start < y.start then some z else some y)
  by_cases h1 : y.start < x.start
  · rw [if_pos h1]
    by_cases h2 : z.start < y.start
    · rw [if_pos h2]
      show (if z.start < y.start then some z else some y) =
        (if z.start < x.start then some z else some x)
      rw [if_pos h2, if_pos (show z.start < x.start by omega)]
    · rw [if_neg h2]
      show (if z.start < y.start then some z else some y) =
        (if y.start < x.start then some y else some x)
      rw [if_neg h2, if_pos h1]
  · rw [if_neg h1]
    by_cases h2 : z.start < y.start
    · rw [if_pos h2]
    · rw [if_neg h2]
      show (if z.start < x.start then some z else some x) =
        (if y.start < x.start then some y else some x)
      rw [if_neg h1, if_neg (show ¬z.start < x.start by omega)]

/-- One selection step is a `mergeSel` with the pattern's candidate. -/
theorem selStep_eq_merge (s : Str) (acc : Option PatMatch)
    (p : FmtKind × (Str → Option (Str × Nat))) :
    selStep s acc p =
      mergeSel acc ((searchPat p.2 s).map (fun r => PatMatch.mk p.1 r.1 r.2.1 r.2.2)) := by
  rcases hsp : searchPat p.2 s with _ | ⟨st, cap, len⟩
  · rcases acc with _ | c <;> simp [selStep, hsp, mergeSel]
  · rcases acc with _ | c <;> simp [selStep, hsp, mergeSel]

/-- The source's selection fold computes exactly the first-minimum of the
candidate list. -/
theorem selectMatch_eq_firstMin (s : Str) : selectMatch s = firstMin (candidates s) := by
  unfold selectMatch candidates
  suffices h : ∀ (l : List (FmtKind × (Str → Option (Str × Nat)))) (acc : Option PatMatch),
      l.foldl (selStep s) acc =
        mergeSel acc (firstMin (l.filterMap
          (fun p => (searchPat p.2 s).map (fun r => PatMatch.mk p.1 r.1 r.2.1 r.2.2)))) by
    rw [h inlinePatterns none]
    rfl
  intro l
  induction l with
  | nil =>
    intro acc
    rcases acc with _ | c <;> rfl
  | cons p l ih =>
    intro acc
    simp only [List.foldl_cons, List.filterMap_cons]
    rw [ih (selStep s acc p), selStep_eq_merge]
    rcases hsp : searchPat p.2 s with _ | ⟨st, cap, len⟩
    · simp only [Option.map_none']
      rcases acc with _ | c <;> rfl
    · simp only [Option.map_some']
      rw [show firstMin (PatMatch.mk p.1 st cap len ::
            l.filterMap (fun p => (searchPat p.2 s).map
              (fun r => PatMatch.mk p.1 r.1 r.2.1 r.2.2))) =
          mergeSel (some (PatMatch.mk p.1 st cap len))
            (firstMin (l.filterMap (fun p => (searchPat p.2 s).map
              (fun r => PatMatch.mk p.1 r.1 r.2.1 r.2.2)))) from rfl]
      rw [mergeSel_assoc]

theorem firstMin_eq_none {ms : List PatMatch} (h : firstMin ms = none) : ms = [] := by
  cases ms with
  | nil => rfl
  | cons x l =>
    rw [show firstMin (x :: l) = mergeSel (some x) (firstMin l) from rfl] at h
    rcases hw : firstMin l with _ | w
    · rw [hw] at h
      cases h
    · rw [hw] at h
      have h' : (if w.start < x.start then some w else some x) = (none : Option PatMatch) := h
      split at h' <;> cases h'

/-- `firstMin` returns an element of the list of minimal start. -/
theorem firstMin_spec (ms : List PatMatch) (m : PatMatch) (h : firstMin ms = some m) :
    m ∈ ms ∧ ∀ m' ∈ ms, m.start ≤ m'.start := by
  induction ms generalizing m with
  | nil => cases h
  | cons x l ih =>
    rw [show firstMin (x :: l) = mergeSel (some x) (firstMin l) from rfl] at h
    rcases hl : firstMin l with _ | m'
    · rw [hl] at h
      have h' : some x = some m := h
      cases h'
      have hnil := firstMin_eq_none hl
      subst hnil
      refine ⟨by simp, ?_⟩
      intro w hw
      have : w = x := by simpa using hw
      subst this
      exact le_refl _
    · rw [hl] at h
      obtain ⟨hmem, hmin⟩ := ih m' hl
      have h' : (if m'.start < x.start then some m' else some x) = some m := h
      by_cases hlt : m'.start < x.start
      · rw [if_pos hlt] at h'
        cases h'
        refine ⟨List.mem_cons_of_mem x hmem, ?_⟩
        intro w hw
        rcases List.mem_cons.mp hw with rfl | hw
        · omega
        · exact hmin w hw
      · rw [if_neg hlt] at h'
        cases h'
        refine ⟨by simp, ?_⟩
        intro w hw
        rcases List.mem_cons.mp hw with rfl | hw
        · exact le_refl _
        · have := hmin w hw
          omega

/-- Every candidate comes from one of the four patterns, with its search
result. -/
theorem candidates_sound {s : Str} {m : PatMatch} (h : m ∈ candidates s) :
    ∃ p ∈ inlinePatterns, p.1 = m.kind ∧
      searchPat p.2 s = some (m.start, m.cap, m.len) := by
  simp only [candidates, List.mem_filterMap] at h
  obtain ⟨p, hp, hm⟩ := h
  rcases hsp : searchPat p.2 s with _ | ⟨st, cap, len⟩
  · rw [hsp] at hm
    cases hm
  · rw [hsp] at hm
    simp only [Option.map_some'] at hm
    cases hm
    exact ⟨p, hp, rfl, hsp⟩

/-- The selected match's capture is never empty: every pattern's capture group
requires at least one character. -/
theorem selectMatch_cap_ne {s : Str} {m : PatMatch} (h : selectMatch s = some m) :
    m.cap ≠ [] := by
  rw [selectMatch_eq_firstMin] at h
  have hmem := (firstMin_spec _ _ h).1
  obtain ⟨p, hp, -, hsp⟩ := candidates_sound hmem
  have h4 : p = (FmtKind.bold, matchWrap (String.toList "\\textbf\x7b"))
      ∨ p = (FmtKind.italic, matchWrap (String.toList "\\textit\x7b"))
      ∨ p = (FmtKind.underline, matchWrap (String.toList "\\underline\x7b"))
      ∨ p = (FmtKind.hyperlink, matchHref) := by
    simpa [inlinePatterns] using hp
  rcases h4 with rfl | rfl | rfl | rfl
  · exact searchPat_cap_ne (fun _ _ _ hw => matchWrap_cap_ne hw) s m.start m.cap m.len hsp
  · exact searchPat_cap_ne (fun _ _ _ hw => matchWrap_cap_ne hw) s m.start m.cap m.len hsp
  · exact searchPat_cap_ne (fun _ _ _ hw => matchWrap_cap_ne hw) s m.start m.cap m.len hsp
  · exact searchPat_cap_ne (fun _ _ _ hw => matchHref_cap_ne hw) s m.start m.cap m.len hsp

theorem replaceAll_ne_nil {p r : Str} (hp : p ≠ []) (hr : r ≠ []) {s : Str}
    (hs : s ≠ []) : replaceAll p r s ≠ [] := by
  cases s with
  | nil => exact absurd rfl hs
  | cons c rest =>
    rw [replaceAll_cons p r hp]
    split
    · simp [hr]
    · simp

theorem unescape_ne_nil {s : Str} (hs : s ≠ []) : unescape_latex s ≠ [] := by
  rw [unescape_unfold]
  exact replaceAll_ne_nil (by decide) (by decide)
    (replaceAll_ne_nil (by decide) (by decide)
      (replaceAll_ne_nil (by decide) (by decide)
        (replaceAll_ne_nil (by decide) (by decide)
          (replaceAll_ne_nil (by decide) (by decide)
            (replaceAll_ne_nil (by decide) (by decide)
              (replaceAll_ne_nil (by decide) (by decide)
                (replaceAll_ne_nil (by decide) (by decide)
                  (replaceAll_ne_nil (by decide) (by decide)
                    (replaceAll_ne_nil (by decide) (by decide) hs)))))))))

/-- The formatted run the scanner builds for a selected match. -/
def fmtRunOf (m : PatMatch) : Run :=
  match m.kind with
  | .hyperlink => plainRun (unescape_latex m.cap)
  | .bold => ⟨unescape_latex m.cap, true, false, false⟩
  | .italic => ⟨unescape_latex m.cap, false, true, false⟩
  | .underline => ⟨unescape_latex m.cap, false, false, true⟩

theorem parseInlineAux_succ_none {fuel : Nat} {c : Char} {rest : Str}
    (hsel : selectMatch (c :: rest) = none) :
    parseInlineAux (fuel + 1) (c :: rest) =
      if (unescape_latex (c :: rest)).isEmpty then []
      else [plainRun (unescape_latex (c :: rest))] := by
  show (match selectMatch (c :: rest) with
    | none =>
      let remaining := unescape_latex (c :: rest)
      if remaining.isEmpty then [] else [plainRun remaining]
    | some m =>
      let beforeText := unescape_latex ((c :: rest).take m.start)
      let beforeRuns := if beforeText.isEmpty then [] else [plainRun beforeText]
      let fmtRun : Run :=
        match m.kind with
        | .hyperlink => plainRun (unescape_latex m.cap)
        | .bold => ⟨unescape_latex m.cap, true, false, false⟩
        | .italic => ⟨unescape_latex m.cap, false, true, false⟩
        | .underline => ⟨unescape_latex m.cap, false, false, true⟩
      beforeRuns ++ fmtRun :: parseInlineAux fuel ((c :: rest).drop (m.start + m.len))) = _
  rw [hsel]

theorem parseInlineAux_succ_some {fuel : Nat} {c : Char} {rest : Str} {m : PatMatch}
    (hsel : selectMatch (c :: rest) = some m) :
    parseInlineAux (fuel + 1) (c :: rest) =
      (if (unescape_latex ((c :: rest).take m.start)).isEmpty then []
       else [plainRun (unescape_latex ((c :: rest).take m.start))]) ++
      fmtRunOf m :: parseInlineAux fuel ((c :: rest).drop (m.start + m.len)) := by
  show (match selectMatch (c :: rest) with
    | none =>
      let remaining := unescape_latex (c :: rest)
      if remaining.isEmpty then [] else [plainRun remaining]
    | some m =>
      let beforeText := unescape_latex ((c :: rest).take m.start)
      let beforeRuns := if beforeText.isEmpty then [] else [plainRun beforeText]
      let fmtRun : Run :=
        match m.kind with
        | .hyperlink => plainRun (unescape_latex m.cap)
        | .bold => ⟨unescape_latex m.cap, true, false, false⟩
        | .italic => ⟨unescape_latex m.cap, false, true, false⟩
        | .underline => ⟨unescape_latex m.cap, false, false, true⟩
      beforeRuns ++ fmtRun :: parseInlineAux fuel ((c :: rest).drop (m.start + m.len))) = _
  rw [hsel]
  rfl

theorem fmtRunOf_text (m : PatMatch) : (fmtRunOf m).text = unescape_latex m.cap := by
  rcases m with ⟨kind, st, cap, len⟩
  cases kind <;> rfl

theorem plainRun_text (t : Str) : (plainRun t).text = t := rfl

set_option maxHeartbeats 1000000 in
/-- Every run the scanning loop emits carries non-empty text. -/
theorem parseInlineAux_ne_nil :
    ∀ (fuel : Nat) (s : Str), ∀ r ∈ parseInlineAux fuel s, r.text ≠ [] := by
  intro fuel
  induction fuel with
  | zero =>
    intro s r hr
    simp [parseInlineAux] at hr
  | succ fuel ih =>
    intro s r hr
    cases s with
    | nil => simp [parseInlineAux] at hr
    | cons c rest =>
      rcases hsel : selectMatch (c :: rest) with _ | m
      · rw [parseInlineAux_succ_none hsel] at hr
        rcases he : (unescape_latex (c :: rest)).isEmpty with _ | _
        · rw [he] at hr
          simp at hr
          subst hr
          rw [plainRun_text]
          intro hnil
          rw [hnil] at he
          cases he
        · rw [he] at hr
          simp at hr
      · rw [parseInlineAux_succ_some hsel] at hr
        rw [List.mem_append] at hr
        rcases hr with hr | hr
        · rcases hb : (unescape_latex ((c :: rest).take m.start)).isEmpty with _ | _
          · rw [hb] at hr
            simp at hr
            subst hr
            rw [plainRun_text]
            intro hnil
            rw [hnil] at hb
            cases hb
          · rw [hb] at hr
            simp at hr
        · rw [List.mem_cons] at hr
          rcases hr with rfl | hr
          · rw [fmtRunOf_text]
            exact unescape_ne_nil (selectMatch_cap_ne hsel)
          · exact ih _ r hr

end DocTex

namespace DocTex

/-- C10.  Every run the inline scanner adds has non-empty text: empty text
before a match and an empty final remainder contribute no run, and every
formatted run's capture is at least one character, which unescaping keeps
non-empty. -/
theorem C10_runs_nonempty (text : Str) (r : Run) (hr : r ∈ parseInline text) :
    r.text ≠ [] :=
  parseInlineAux_ne_nil (text.length + 1) text r hr

/-- Witness for C10 at the one-character text `a`. -/
theorem C10_runs_nonempty_witness :
    plainRun ['a'] ∈ parseInline ['a'] ∧ (plainRun ['a']).text ≠ [] :=
  ⟨by decide, C10_runs_nonempty ['a'] (plainRun ['a']) (by decide)⟩

/-- C8.  The inline scanner's selection step equals the spec's rule — of the
four patterns' matches over the unconsumed remainder (listed in evaluation
order bold, italic, underline, hyperlink), the one with the lowest start
offset, the earliest in that order winning ties (`firstMin` keeps a later
candidate only when strictly lower); matched content is never re-scanned
(the loop recurses on the text after the match).  On the markup of
`plain **bold** then *italic*` the emitted runs are exactly: a plain run
`plain `, a bold run `bold`, a plain run ` then `, an italic run `italic`. -/
theorem C8_leftmost_scan :
    (∀ s : Str, selectMatch s = firstMin (candidates s)) ∧
    (∀ (ms : List PatMatch) (m : PatMatch), firstMin ms = some m →
      m ∈ ms ∧ ∀ m' ∈ ms, m.start ≤ m'.start) ∧
    parseInline (String.toList "plain \\textbf\x7bbold\x7d then \\textit\x7bitalic\x7d") =
      [plainRun (String.toList "plain "),
       ⟨String.toList "bold", true, false, false⟩,
       plainRun (String.toList " then "),
       ⟨String.toList "italic", false, true, false⟩] :=
  ⟨selectMatch_eq_firstMin, firstMin_spec, by decide⟩

/-- Witness for C8: the minimality part applied to a concrete candidate
list. -/
theorem C8_leftmost_scan_witness :
    (⟨FmtKind.italic, 2, ['i'], 10⟩ : PatMatch) ∈
        [⟨FmtKind.bold, 4, ['b'], 10⟩, (⟨FmtKind.italic, 2, ['i'], 10⟩ : PatMatch)] ∧
    ∀ m' ∈ [⟨FmtKind.bold, 4, ['b'], 10⟩, (⟨FmtKind.italic, 2, ['i'], 10⟩ : PatMatch)],
      (⟨FmtKind.italic, 2, ['i'], 10⟩ : PatMatch).start ≤ m'.start :=
  C8_leftmost_scan.2.1
    [⟨FmtKind.bold, 4, ['b'], 10⟩, ⟨FmtKind.italic, 2, ['i'], 10⟩]
    ⟨FmtKind.italic, 2, ['i'], 10⟩ (by decide)

/-! ### Heading round-trip lemmas -/

theorem utok_zero_ne_nil (c : Char) : utok 0 c ≠ [] := by
  by_cases hm : c ∈ specialChars
  · have h : ∀ c ∈ specialChars, utok 0 c ≠ [] := by decide
    exact h c hm
  · have hn : ¬(c = '&' ∨ c = '%' ∨ c = '$' ∨ c = '#' ∨ c = '_' ∨ c = '\x7b'
        ∨ c = '\x7d' ∨ c = '~' ∨ c = '^' ∨ c = '\\') := by
      simpa [specialChars] using hm
    push_neg at hn
    obtain ⟨n1, n2, n3, n4, n5, n6, n7, n8, n9, n10⟩ := hn
    rw [utok_other n1 n2 n3 n4 n5 n6 n7 n8 n9 n10 0]
    simp

theorem escape_ne_nil {t : Str} (ht : t ≠ []) : escape_latex t ≠ [] := by
  rw [escape_eq]
  cases t with
  | nil => exact absurd rfl ht
  | cons c rest =>
    show utok 0 c ++ tmap (utok 0) rest ≠ []
    simp [utok_zero_ne_nil c]

theorem utok_zero_no_rbrace {c : Char} (h7 : c ≠ '\x7d') (h8 : c ≠ '~')
    (h9 : c ≠ '^') (h10 : c ≠ '\\') : '\x7d' ∉ utok 0 c := by
  by_cases hm : c ∈ (['&', '%', '$', '#', '_', '\x7b'] : List Char)
  · have h : ∀ c ∈ (['&', '%', '$', '#', '_', '\x7b'] : List Char), '\x7d' ∉ utok 0 c := by
      decide
    exact h c hm
  · have hn : ¬(c = '&' ∨ c = '%' ∨ c = '$' ∨ c = '#' ∨ c = '_' ∨ c = '\x7b') := by
      simpa using hm
    push_neg at hn
    obtain ⟨n1, n2, n3, n4, n5, n6⟩ := hn
    rw [utok_other n1 n2 n3 n4 n5 n6 h7 h8 h9 h10 0]
    simp
    intro he
    exact h7 he.symm

theorem escape_no_rbrace {t : Str}
    (h : ∀ c ∈ t, c ≠ '\x7d' ∧ c ≠ '~' ∧ c ≠ '^' ∧ c ≠ '\\') :
    '\x7d' ∉ escape_latex t := by
  rw [escape_eq]
  induction t with
  | nil => simp [tmap]
  | cons c rest ih =>
    show '\x7d' ∉ utok 0 c ++ tmap (utok 0) rest
    rw [List.mem_append]
    rintro (hc | hc)
    · obtain ⟨h7, h8, h9, h10⟩ := h c (by simp)
      exact utok_zero_no_rbrace h7 h8 h9 h10 hc
    · exact ih (fun d hd => h d (by simp [hd])) hc

theorem maxSubsAux_succ_false {f : Nat} {s : Str}
    (h : lstartsWith s (String.toList "sub") = false) : maxSubsAux (f + 1) s = 0 := by
  show (if lstartsWith s (String.toList "sub") then maxSubsAux f (s.drop 3) + 1 else 0) = 0
  rw [h]
  rfl

theorem maxSubsAux_succ_true {f : Nat} {s : Str}
    (h : lstartsWith s (String.toList "sub") = true) :
    maxSubsAux (f + 1) s = maxSubsAux f (s.drop 3) + 1 := by
  show (if lstartsWith s (String.toList "sub") then maxSubsAux f (s.drop 3) + 1 else 0) = _
  rw [h]
  rfl

theorem maxSubsAux_section (X : Str) (fuel : Nat) :
    maxSubsAux fuel (String.toList "section\x7b" ++ X) = 0 := by
  cases fuel with
  | zero => rfl
  | succ f =>
    apply maxSubsAux_succ_false
    rw [lsw_append_long (by decide)]
    decide

theorem maxSubsAux_subsection (X : Str) (fuel : Nat) (hf : 1 ≤ fuel) :
    maxSubsAux fuel (String.toList "subsection\x7b" ++ X) = 1 := by
  cases fuel with
  | zero => omega
  | succ f =>
    rw [maxSubsAux_succ_true (by rw [lsw_append_long (by decide)]; decide)]
    rw [drop_append_le (by decide)]
    show maxSubsAux f (String.toList "section\x7b" ++ X) + 1 = 1
    rw [maxSubsAux_section X f]

theorem maxSubsAux_subsubsection (X : Str) (fuel : Nat) (hf : 2 ≤ fuel) :
    maxSubsAux fuel (String.toList "subsubsection\x7b" ++ X) = 2 := by
  cases fuel with
  | zero => omega
  | succ f =>
    rw [maxSubsAux_succ_true (by rw [lsw_append_long (by decide)]; decide)]
    rw [drop_append_le (by decide)]
    show maxSubsAux f (String.toList "subsection\x7b" ++ X) + 1 = 2
    rw [maxSubsAux_subsection X f (by omega)]

theorem takeWhile_append_all {p : Char → Bool} {a : Str} (h : ∀ c ∈ a, p c = true)
    (b : Str) : (a ++ b).takeWhile p = a ++ b.takeWhile p := by
  induction a with
  | nil => simp
  | cons c a ih =>
    have hc : p c = true := h c (by simp)
    simp only [List.cons_append, List.takeWhile_cons, hc, if_true]
    rw [ih (fun d hd => h d (by simp [hd]))]

theorem matchSectionAt_eval (R esc : Str) (hne : esc ≠ [])
    (hnb : ∀ c ∈ esc, (c != '\x7d') = true)
    (hdrop : R.drop (3 * maxSubs R) = String.toList "section\x7b" ++ (esc ++ ['\x7d'])) :
    matchSectionAt ('\\' :: R) = some esc := by
  simp only [matchSectionAt]
  rw [hdrop]
  have hc1 : lstartsWith (String.toList "section\x7b" ++ (esc ++ ['\x7d']))
      (String.toList "section\x7b") = true := by
    rw [lsw_append_long (by decide)]
    decide
  rw [hc1, if_pos rfl]
  have hbody : (String.toList "section\x7b" ++ (esc ++ ['\x7d'])).drop 8 = esc ++ ['\x7d'] :=
    List.drop_left' (by decide)
  rw [hbody]
  have hcap : (esc ++ ['\x7d']).takeWhile (fun c => c != '\x7d') = esc := by
    rw [takeWhile_append_all hnb]
    simp
  rw [hcap]
  have hrest : (esc ++ ['\x7d']).drop esc.length = ['\x7d'] := List.drop_left _ _
  rw [hrest]
  have hg : ((!esc.isEmpty) && lstartsWith ['\x7d'] ['\x7d']) = true := by
    cases esc with
    | nil => exact absurd rfl hne
    | cons a l => rfl
  rw [hg, if_pos rfl]

theorem searchSectionArg_head {c : Char} {rest cap : Str}
    (h : matchSectionAt (c :: rest) = some cap) :
    searchSectionArg (c :: rest) = some cap := by
  show (match matchSectionAt (c :: rest) with
    | some cap => some cap
    | none => searchSectionArg rest) = some cap
  rw [h]

theorem process_section_of_match {B : Str} {lv : Nat} {cap : Str}
    (h : searchSectionArg B = some cap) :
    process_section B lv = [DocItem.heading lv (unescape_latex cap)] := by
  unfold process_section
  rw [h]

theorem lsw_cons_same (c : Char) (s p : Str) :
    lstartsWith (c :: s) (c :: p) = lstartsWith s p := by
  simp [lstartsWith]

end DocTex

namespace DocTex

/-- C3, counterexample.  Generating a level-4 heading yields `\paragraph{...}`,
which the block classifier does not recognise as a heading: it re-parses as a
plain paragraph with one literal run, not as a `Heading`. -/
theorem C3_counterexample :
    process_block (genHeadingCmd 4 (String.toList "Title")) =
      [DocItem.para [plainRun (String.toList "\\paragraph\x7bTitle\x7d")]] ∧
    process_block (genHeadingCmd 4 (String.toList "Title")) ≠
      [DocItem.heading 4 (String.toList "Title")] := by
  decide

/-- C3, amended.  For heading levels 1..3 and every non-empty title containing
none of `\x7d`, `~`, `^`, `\` (characters whose escape sequences contain a
closing brace, which the title regex cannot cross), generating the heading's
markup and classifying-then-parsing it back yields exactly a Heading block
with the same level and the unescaped (original) title. -/
theorem C3_heading_roundtrip (level : Nat) (title : Str)
    (hl : 1 ≤ level) (hu : level ≤ 3) (hne : title ≠ [])
    (hchars : ∀ c ∈ title, c ≠ '\x7d' ∧ c ≠ '~' ∧ c ≠ '^' ∧ c ≠ '\\') :
    process_block (genHeadingCmd level title) = [DocItem.heading level title] := by
  have hesc_ne : escape_latex title ≠ [] := escape_ne_nil hne
  have hesc_nb : ∀ c ∈ escape_latex title, (c != '\x7d') = true := by
    intro c hc
    rw [bne_iff_ne]
    intro he
    subst he
    exact escape_no_rbrace hchars hc
  set E := escape_latex title with hE
  interval_cases level
  · -- level 1
    rw [genHeadingCmd_one title, ← hE]
    have hb : String.toList "\\section\x7b" ++ E ++ ['\x7d'] =
        '\\' :: (String.toList "section\x7b" ++ (E ++ ['\x7d'])) := by
      rw [List.append_assoc]
      rfl
    rw [hb]
    have hd1 : lstartsWith ('\\' :: (String.toList "section\x7b" ++ (E ++ ['\x7d'])))
        (String.toList "\\section") = true := by
      rw [show (String.toList "\\section") = '\\' :: String.toList "section" from rfl,
        lsw_cons_same, lsw_append_long (by decide)]
      decide
    unfold process_block
    rw [if_pos hd1]
    have hms : maxSubs (String.toList "section\x7b" ++ (E ++ ['\x7d'])) = 0 :=
      maxSubsAux_section _ _
    refine process_section_of_match (searchSectionArg_head
      (matchSectionAt_eval _ E hesc_ne hesc_nb ?_)) |>.trans ?_
    · rw [hms]
      rfl
    · rw [hE, unescape_escape]
  · -- level 2
    rw [genHeadingCmd_two title, ← hE]
    have hb : String.toList "\\subsection\x7b" ++ E ++ ['\x7d'] =
        '\\' :: (String.toList "subsection\x7b" ++ (E ++ ['\x7d'])) := by
      rw [List.append_assoc]
      rfl
    rw [hb]
    have hd1 : lstartsWith ('\\' :: (String.toList "subsection\x7b" ++ (E ++ ['\x7d'])))
        (String.toList "\\section") = false := by
      rw [show (String.toList "\\section") = '\\' :: String.toList "section" from rfl,
        lsw_cons_same, lsw_append_long (by decide)]
      decide
    have hd2 : lstartsWith ('\\' :: (String.toList "subsection\x7b" ++ (E ++ ['\x7d'])))
        (String.toList "\\subsection") = true := by
      rw [show (String.toList "\\subsection") = '\\' :: String.toList "subsection" from rfl,
        lsw_cons_same, lsw_append_long (by decide)]
      decide
    have hn1 : ¬(lstartsWith ('\\' :: (String.toList "subsection\x7b" ++ (E ++ ['\x7d'])))
        (String.toList "\\section") = true) := by
      rw [hd1]
      simp
    unfold process_block
    rw [if_neg hn1, if_pos hd2]
    have hms : maxSubs (String.toList "subsection\x7b" ++ (E ++ ['\x7d'])) = 1 :=
      maxSubsAux_subsection _ _ (by simp)
    refine process_section_of_match (searchSectionArg_head
      (matchSectionAt_eval _ E hesc_ne hesc_nb ?_)) |>.trans ?_
    · rw [hms, show 3 * 1 = 3 from rfl, drop_append_le (by decide)]
      rfl
    · rw [hE, unescape_escape]
  · -- level 3
    rw [genHeadingCmd_three title, ← hE]
    have hb : String.toList "\\subsubsection\x7b" ++ E ++ ['\x7d'] =
        '\\' :: (String.toList "subsubsection\x7b" ++ (E ++ ['\x7d'])) := by
      rw [List.append_assoc]
      rfl
    rw [hb]
    have hd1 : lstartsWith ('\\' :: (String.toList "subsubsection\x7b" ++ (E ++ ['\x7d'])))
        (String.toList "\\section") = false := by
      rw [show (String.toList "\\section") = '\\' :: String.toList "section" from rfl,
        lsw_cons_same, lsw_append_long (by decide)]
      decide
    have hd2 : lstartsWith ('\\' :: (String.toList "subsubsection\x7b" ++ (E ++ ['\x7d'])))
        (String.toList "\\subsection") = false := by
      rw [show (String.toList "\\subsection") = '\\' :: String.toList "subsection" from rfl,
        lsw_cons_same, lsw_append_long (by decide)]
      decide
    have hd3 : lstartsWith ('\\' :: (String.toList "subsubsection\x7b" ++ (E ++ ['\x7d'])))
        (String.toList "\\subsubsection") = true := by
      rw [show (String.toList "\\subsubsection") = '\\' :: String.toList "subsubsection" from
        rfl, lsw_cons_same, lsw_append_long (by decide)]
      decide
    have hn1 : ¬(lstartsWith ('\\' :: (String.toList "subsubsection\x7b" ++ (E ++ ['\x7d'])))
        (String.toList "\\section") = true) := by
      rw [hd1]
      simp
    have hn2 : ¬(lstartsWith ('\\' :: (String.toList "subsubsection\x7b" ++ (E ++ ['\x7d'])))
        (String.toList "\\subsection") = true) := by
      rw [hd2]
      simp
    unfold process_block
    rw [if_neg hn1, if_neg hn2, if_pos hd3]
    have hms : maxSubs (String.toList "subsubsection\x7b" ++ (E ++ ['\x7d'])) = 2 :=
      maxSubsAux_subsubsection _ _ (by simp)
    refine process_section_of_match (searchSectionArg_head
      (matchSectionAt_eval _ E hesc_ne hesc_nb ?_)) |>.trans ?_
    · rw [hms, show 3 * 2 = 6 from rfl, drop_append_le (by decide)]
      rfl
    · rw [hE, unescape_escape]

/-- Witness for C3 at level 2 and title `Intro`. -/
theorem C3_heading_roundtrip_witness :
    process_block (genHeadingCmd 2 (String.toList "Intro")) =
      [DocItem.heading 2 (String.toList "Intro")] :=
  C3_heading_roundtrip 2 (String.toList "Intro") (by decide) (by decide) (by decide)
    (by decide)

/-! ### Table lemmas -/

theorem process_table_some {block inner : Str} (hex : extractTabular block = some inner) :
    process_table block =
      match tableRows inner with
      | [] => none
      | r0 :: rs => some ((r0 :: rs).map (fun r =>
          fillRow ((splitOnSub ['&'] r0).length) (rowCells r))) := by
  show (match extractTabular block with
    | none => none
    | some inner =>
      match tableRows inner with
      | [] => none
      | r0 :: rs => some ((r0 :: rs).map (fun r =>
          fillRow ((splitOnSub ['&'] r0).length) (rowCells r)))) = _
  rw [hex]

theorem process_table_eq {block inner r0 : Str} {rs : List Str}
    (hex : extractTabular block = some inner) (hrows : tableRows inner = r0 :: rs) :
    process_table block = some ((r0 :: rs).map (fun r =>
      fillRow ((splitOnSub ['&'] r0).length) (rowCells r))) := by
  rw [process_table_some hex, hrows]

theorem fillRow_length (n : Nat) (cells : List Str) : (fillRow n cells).length = n := by
  simp [fillRow]

/-- The rectangular grid row equals the first `n` provided cells padded with
empty cells up to `n`. -/
theorem fillRow_eq (n : Nat) (cells : List Str) :
    fillRow n cells = cells.take n ++ List.replicate (n - cells.length) [] := by
  apply List.ext_getElem
  · simp [fillRow, List.length_take, List.length_replicate]
    omega
  · intro i h1 h2
    simp only [fillRow, List.getElem_map, List.getElem_range]
    by_cases hc : i < cells.length
    · rw [List.getD_eq_getElem cells [] hc]
      have hlt : i < (cells.take n).length := by
        rw [fillRow_length] at h1
        simp [List.length_take]
        omega
      rw [List.getElem_append_left hlt]
      simp [List.getElem_take]
    · push_neg at hc
      rw [List.getD_eq_default cells [] hc]
      have hge : (cells.take n).length ≤ i := by
        simp [List.length_take]
        omega
      rw [List.getElem_append_right hge]
      simp

end DocTex

namespace DocTex

/-- C6, counterexample.  A later row with fewer cells than the first row is
padded with empty cells to the table's column count — it does not keep
exactly its own two cells as the claim states. -/
theorem C6_counterexample :
    process_table (String.toList
        "\\begin\x7btabular\x7d\x7b|l|l|l|\x7da & b & c\\\\d & e\\\\\\end\x7btabular\x7d") =
      some [[['a'], ['b'], ['c']], [['d'], ['e'], []]] ∧
    process_table (String.toList
        "\\begin\x7btabular\x7d\x7b|l|l|l|\x7da & b & c\\\\d & e\\\\\\end\x7btabular\x7d") ≠
      some [[['a'], ['b'], ['c']], [['d'], ['e']]] := by
  decide

/-- C6, amended.  After extracting the tabular inner content, the rows kept
are exactly the non-blank rows not starting with a backslash (this drops all
pure rule commands, but also any data row whose first cell begins with a
command or escape); the first kept row's raw cell count N is the column
count; every output row has exactly N cells — a row with more cells keeps
only its first N, and a row with fewer keeps its own cells followed by empty
cells up to N; each kept cell is stripped and unescaped. -/
theorem C6_table_shape (block inner r0 : Str) (rs : List Str)
    (hex : extractTabular block = some inner)
    (hrows : tableRows inner = r0 :: rs) :
    process_table block = some ((r0 :: rs).map (fun r =>
      (rowCells r).take ((splitOnSub ['&'] r0).length) ++
        List.replicate ((splitOnSub ['&'] r0).length - (rowCells r).length) [])) ∧
    (∀ tbl, process_table block = some tbl →
      ∀ row ∈ tbl, row.length = (splitOnSub ['&'] r0).length) := by
  have h1 := process_table_eq hex hrows
  constructor
  · rw [h1]
    congr 1
    apply List.map_congr_left
    intro r _
    exact fillRow_eq _ (rowCells r)
  · intro tbl htbl row hrow
    rw [h1] at htbl
    have htbl' : tbl = (r0 :: rs).map (fun r =>
        fillRow ((splitOnSub ['&'] r0).length) (rowCells r)) := by
      cases htbl
      rfl
    subst htbl'
    rw [List.mem_map] at hrow
    obtain ⟨r, -, hr⟩ := hrow
    rw [← hr]
    exact fillRow_length _ _

/-- Witness for C6: a block whose second row has one extra cell keeps only
the first two cells of that row. -/
theorem C6_table_shape_witness :
    process_table (String.toList
        "\\begin\x7btabular\x7d\x7b|l|l|\x7da & b\\\\c & d & e\\\\\\end\x7btabular\x7d") =
      some [[['a'], ['b']], [['c'], ['d']]] :=
  (C6_table_shape (String.toList
      "\\begin\x7btabular\x7d\x7b|l|l|\x7da & b\\\\c & d & e\\\\\\end\x7btabular\x7d")
    (String.toList "a & b\\\\c & d & e\\\\") (String.toList "a & b")
    [String.toList "c & d & e"] (by decide) (by decide)).1.trans (by decide)

/-! ### List-item lemmas -/

theorem tryItemW_chars (t : Str) :
    ∀ (w : Nat) (cap : Str) (len : Nat), tryItemW t w = some (cap, len) →
      ∀ c ∈ cap, c ≠ '\\' ∧ c ≠ '\n' := by
  intro w
  induction w with
  | zero =>
    intro cap len h
    cases h
  | succ w ih =>
    intro cap len h
    simp only [tryItemW] at h
    split at h
    · cases h
      intro c hc
      have hp := List.mem_takeWhile_imp hc
      simp only [Bool.and_eq_true, bne_iff_ne] at hp
      exact hp
    · exact ih cap len h

theorem matchItemAt_chars {s cap : Str} {len : Nat}
    (h : matchItemAt s = some (cap, len)) : ∀ c ∈ cap, c ≠ '\\' ∧ c ≠ '\n' := by
  unfold matchItemAt at h
  split at h
  · exact tryItemW_chars _ _ cap len h
  · cases h

theorem findItemsAux_succ_some {fuel : Nat} {c : Char} {rest cap : Str} {len : Nat}
    (h : matchItemAt (c :: rest) = some (cap, len)) :
    findItemsAux (fuel + 1) (c :: rest) = cap :: findItemsAux fuel ((c :: rest).drop len) := by
  show (match matchItemAt (c :: rest) with
    | some (cap, len) => cap :: findItemsAux fuel ((c :: rest).drop len)
    | none => findItemsAux fuel rest) = _
  rw [h]

theorem findItemsAux_succ_none {fuel : Nat} {c : Char} {rest : Str}
    (h : matchItemAt (c :: rest) = none) :
    findItemsAux (fuel + 1) (c :: rest) = findItemsAux fuel rest := by
  show (match matchItemAt (c :: rest) with
    | some (cap, len) => cap :: findItemsAux fuel ((c :: rest).drop len)
    | none => findItemsAux fuel rest) = _
  rw [h]

theorem findItemsAux_chars :
    ∀ (fuel : Nat) (s : Str), ∀ cap ∈ findItemsAux fuel s, ∀ c ∈ cap, c ≠ '\\' ∧ c ≠ '\n' := by
  intro fuel
  induction fuel with
  | zero =>
    intro s cap hcap
    simp [findItemsAux] at hcap
  | succ fuel ih =>
    intro s cap hcap
    cases s with
    | nil => simp [findItemsAux] at hcap
    | cons c rest =>
      rcases hmi : matchItemAt (c :: rest) with _ | ⟨cap1, len1⟩
      · rw [findItemsAux_succ_none hmi] at hcap
        exact ih rest cap hcap
      · rw [findItemsAux_succ_some hmi] at hcap
        rcases List.mem_cons.mp hcap with rfl | hcap
        · exact matchItemAt_chars hmi
        · exact ih _ cap hcap

theorem mem_pyStrip {c : Char} {s : Str} (h : c ∈ pyStrip s) : c ∈ s := by
  unfold pyStrip at h
  rw [List.mem_reverse] at h
  have h1 := (List.dropWhile_sublist (l := (s.dropWhile pyWsChar).reverse)
    (p := pyWsChar)).subset h
  rw [List.mem_reverse] at h1
  exact (List.dropWhile_sublist (l := s) (p := pyWsChar)).subset h1

theorem replaceAll_id_of_head_notMem (p : Str) {r s : Str}
    (hp : p.head? = some '\\') (h : '\\' ∉ s) : replaceAll p r s = s := by
  cases p with
  | nil => simp at hp
  | cons hc p' =>
    have hhc : hc = '\\' := by simpa using hp
    subst hhc
    induction s with
    | nil => rfl
    | cons c rest ih =>
      rw [replaceAll_cons _ _ (by simp)]
      have hsw : lstartsWith (c :: rest) ('\\' :: p') = false := by
        have hcne : c ≠ '\\' := by
          intro he
          exact h (by simp [he])
        simp [lstartsWith, hcne]
      rw [hsw]
      simp only [Bool.false_eq_true, if_false]
      rw [ih (fun hm => h (by simp [hm]))]

theorem unescape_id_of_no_backslash {s : Str} (h : '\\' ∉ s) :
    unescape_latex s = s := by
  rw [unescape_unfold]
  rw [replaceAll_id_of_head_notMem ['\\', '&'] (by decide) h]
  rw [replaceAll_id_of_head_notMem ['\\', '%'] (by decide) h]
  rw [replaceAll_id_of_head_notMem ['\\', '$'] (by decide) h]
  rw [replaceAll_id_of_head_notMem ['\\', '#'] (by decide) h]
  rw [replaceAll_id_of_head_notMem ['\\', '_'] (by decide) h]
  rw [replaceAll_id_of_head_notMem ['\\', '\x7b'] (by decide) h]
  rw [replaceAll_id_of_head_notMem ['\\', '\x7d'] (by decide) h]
  rw [replaceAll_id_of_head_notMem (String.toList "\\textasciitilde\x7b\x7d") (by decide) h]
  rw [replaceAll_id_of_head_notMem (String.toList "\\textasciicircum\x7b\x7d") (by decide) h]
  rw [replaceAll_id_of_head_notMem (String.toList "\\textbackslash\x7b\x7d") (by decide) h]

end DocTex

namespace DocTex

/-- C7, counterexample.  An item whose text contains an escaped character is
cut at the backslash, not at the next line break or item marker: the item
parses as `a`, not as `a & b`. -/
theorem C7_counterexample :
    process_list (String.toList "\\begin\x7bitemize\x7d\n\\item a \\& b\n\\end\x7bitemize\x7d") =
      [DocItem.styledPara ['a'] (String.toList "List Bullet")] ∧
    process_list (String.toList "\\begin\x7bitemize\x7d\n\\item a \\& b\n\\end\x7bitemize\x7d") ≠
      [DocItem.styledPara (String.toList "a & b") (String.toList "List Bullet")] := by
  decide

/-- C7, amended.  A list block is ordered (numbered style) iff the enumerate
marker occurs in the block; each item's text is the text following the item
marker and its whitespace up to the next backslash or line break — whichever
comes first — stripped and unescaped.  Consequently no item's text contains a
backslash or a line break, and text after any backslash (such as an escaped
character) is not part of the item. -/
theorem C7_list_parse :
    (∀ (block t s : Str), DocItem.styledPara t s ∈ process_list block →
      (s = String.toList "List Number" ↔
        occursIn (String.toList "\\begin\x7benumerate\x7d") block = true)) ∧
    (∀ (block t s : Str), DocItem.styledPara t s ∈ process_list block →
      '\\' ∉ t ∧ '\n' ∉ t) ∧
    process_list (String.toList "\\begin\x7benumerate\x7d\n\\item x\n\\end\x7benumerate\x7d") =
      [DocItem.styledPara ['x'] (String.toList "List Number")] := by
  refine ⟨?_, ?_, by decide⟩
  · intro block t s hmem
    unfold process_list at hmem
    rw [List.mem_map] at hmem
    obtain ⟨it, hit, heq⟩ := hmem
    have hs : (if occursIn (String.toList "\\begin\x7benumerate\x7d") block then
        String.toList "List Number" else String.toList "List Bullet") = s := by
      have := heq
      simp only [DocItem.styledPara.injEq] at this
      exact this.2
    rcases hnum : occursIn (String.toList "\\begin\x7benumerate\x7d") block with _ | _
    · rw [hnum] at hs
      simp only [Bool.false_eq_true, if_false] at hs
      constructor
      · intro hcontra
        rw [← hs] at hcontra
        exact absurd hcontra (by decide)
      · intro hcontra
        simp at hcontra
    · rw [hnum] at hs
      simp only [if_true] at hs
      exact ⟨fun _ => rfl, fun _ => hs.symm⟩
  · intro block t s hmem
    unfold process_list at hmem
    rw [List.mem_map] at hmem
    obtain ⟨it, hit, heq⟩ := hmem
    have ht : unescape_latex (pyStrip it) = t := by
      have := heq
      simp only [DocItem.styledPara.injEq] at this
      exact this.1
    have hchars := findItemsAux_chars block.length block it hit
    have hnb : '\\' ∉ pyStrip it := fun hc => ((hchars '\\' (mem_pyStrip hc)).1 rfl)
    have hnn : '\n' ∉ pyStrip it := fun hc => ((hchars '\n' (mem_pyStrip hc)).2 rfl)
    rw [← ht, unescape_id_of_no_backslash hnb]
    exact ⟨hnb, hnn⟩

/-- Witness for C7: the character-freedom part applied to the concrete item
parsed out of a bulleted block. -/
theorem C7_list_parse_witness :
    '\\' ∉ (['a'] : Str) ∧ '\n' ∉ (['a'] : Str) :=
  C7_list_parse.2.1
    (String.toList "\\begin\x7bitemize\x7d\n\\item a \\& b\n\\end\x7bitemize\x7d")
    ['a'] (String.toList "List Bullet") (by decide)

end DocTex
